import Mathlib

/-!
# Verification of the ATen-operator bridge extension and ROCm reduction kernels

Shallow embedding of two source files of this repository:

* the PyTorch extension (`aten_op_executor`-style bridge) that lets an external
  graph executor invoke ATen operators forward and backward through DLPack
  tensor exchange, with a manual autograd-graph walk
  (`src/unnamed/part_000`, C++ after the build-script prelude);
* the ROCm reduction-operator kernel family
  (`src/onnxruntime/core/providers/rocm/reduction/reduction_ops.h`).

Modelling conventions:

* C++ `TORCH_INTERNAL_ASSERT` failures and undefined-behaviour reads
  (out-of-bounds vector access, dereferencing a null shape pointer) are
  modelled as `Except.error .assertFail`.
* The unbounded `while (!queue.empty())` loops are modelled with an explicit
  fuel parameter; running out of fuel is the distinct error `.fuelOut`, so
  termination of a loop is the statement that its result is not `.fuelOut`.
* Raw tensor payloads are abstracted to `List Int` (one abstract value per
  element); an `at::Tensor` is abstracted to its value together with its
  contiguity flag.  `c10::IValue` built from `c10::optional<T>` with a present
  value is the same runtime value as the one built from `T` directly, so the
  model has no separate optional wrapper and `IValue(c10::nullopt)` is
  `IValue.none`.
* Host-framework state that torch owns (the operator registry, the autograd
  tape built during execution, the `&tensor.grad()` address map) enters the
  model as explicit parameters, documented at each definition.
-/

namespace OrtAten

/-- Error outcomes of the embedded C++ functions: `assertFail` models a
`TORCH_INTERNAL_ASSERT` failure (or an undefined-behaviour memory access),
`fuelOut` models a loop that did not finish within the supplied fuel. -/
inductive RunError where
  | assertFail
  | fuelOut
deriving DecidableEq, Repr

/-- Effectful map over a list in the `Except` monad (the loop shape
`for (...) v.emplace_back(f(x))` where `f` can fail an assertion): stops at
the first error, otherwise returns the image list in order. -/
def mapE (f : α → Except ε β) : List α → Except ε (List β)
  | [] => .ok []
  | a :: l =>
      match f a with
      | .error e => .error e
      | .ok b =>
          match mapE f l with
          | .error e => .error e
          | .ok bs => .ok (b :: bs)

/-- Abstraction of `at::Tensor`: the abstract scalar value carried by the
tensor and its `is_contiguous()` flag. -/
structure Tensor where
  val : Int
  contig : Bool
deriving DecidableEq, Repr

/-- `tensor.is_contiguous() ? tensor : tensor.contiguous()` — the export
pattern used at every `at::toDLPack` call site in the source. -/
def ensureContiguous (t : Tensor) : Tensor :=
  if t.contig then t else { t with contig := true }

/-- The DLPack dtype codes the source compares against
(`DLDataTypeCode::kDLInt`, `kDLUInt`, `kDLFloat`). -/
inductive DLCode where
  | kDLInt
  | kDLUInt
  | kDLFloat
deriving DecidableEq, Repr

/-- Abstraction of `DLManagedTensor` as used by the source: dtype code and
bit width, `ndim`, the `shape` pointer (`none` models `nullptr`), and the
data pointer abstracted to the list of element values.  Float payloads are
carried by the same abstract `Int` values; the source never computes with
them, it only repackages them. -/
structure DLTensor where
  code : DLCode
  bits : Nat
  ndim : Nat
  shape : Option (List Int)
  data : List Int
deriving DecidableEq, Repr

/-- The scalar-shape assertion shared by `ToIValue<T>` and the scalar branch
of `Int64ToBoolIValue`:
`(ndim == 0 && shape == nullptr) || (ndim == 1 && shape[0] == 1)`. -/
def scalarShapeOk (d : DLTensor) : Bool :=
  (d.ndim == 0 && d.shape == none) ||
  (d.ndim == 1 && (match d.shape with | some (len :: _) => len == 1 | _ => false))

/-- Abstraction of `c10::IValue` restricted to the shapes the source builds.
An `IValue` built from a present `c10::optional<T>` is the same value as the
one built from `T`, so there is no optional wrapper; `IValue(c10::nullopt)`
is `.none`. -/
inductive IValue where
  | none
  | tensor (t : Tensor)
  | int (v : Int)
  | float (v : Int)
  | bool (b : Bool)
  | intList (vs : List Int)
  | floatList (vs : List Int)
  | boolList (bs : List Bool)
deriving DecidableEq, Repr

/-- Scalar read shared by the `ToIValue<T>` template instances: check the
scalar shape assertion, then read element 0 of the data (an empty payload
read is undefined behaviour, modelled as an error). -/
def readScalar (d : DLTensor) : Except RunError Int := do
  if scalarShapeOk d then
    match d.data with
    | v :: _ => pure v
    | [] => throw .assertFail
  else throw .assertFail

/-- List read shared by the `ToListIValue<T>` template instances: assert
`ndim == 1`, take `len = shape[0]` and read `data[0..len)`; a null shape
pointer, a negative length, or a read past the payload is undefined
behaviour, modelled as an error. -/
def readList (d : DLTensor) : Except RunError (List Int) := do
  if d.ndim == 1 then
    match d.shape with
    | some (len :: _) =>
        if 0 ≤ len then
          let n := len.toNat
          if n ≤ d.data.length then pure (d.data.take n) else throw .assertFail
        else throw .assertFail
    | _ => throw .assertFail
  else throw .assertFail

/-- `ToIValue<int64_t>` / `ToListIValue<int64_t>` (the `is_optional` wrapper
is value-identical, see the module comment). -/
def toIValueInt (d : DLTensor) (is_list : Bool) : Except RunError IValue :=
  if is_list then do
    pure (IValue.intList (← readList d))
  else do
    pure (IValue.int (← readScalar d))

/-- `ToIValue<float>` / `ToListIValue<float>`; float payloads are carried
abstractly. -/
def toIValueFloat (d : DLTensor) (is_list : Bool) : Except RunError IValue :=
  if is_list then do
    pure (IValue.floatList (← readList d))
  else do
    pure (IValue.float (← readScalar d))

/-- `ToIValue<bool>` / `ToListIValue<bool>` on a `uint8` payload: a byte is
read as the bool it represents (nonzero ↦ `true`). -/
def toIValueBool (d : DLTensor) (is_list : Bool) : Except RunError IValue :=
  if is_list then do
    pure (IValue.boolList ((← readList d).map (· ≠ 0)))
  else do
    pure (IValue.bool ((← readScalar d) ≠ 0))

/-- `Int64ToBoolIValue(dlpack, is_list, is_optional)`: the torch-1.8.1
compatibility path that decodes a 64-bit integer payload as booleans by
`static_cast<bool>`, i.e. a nonzero test. -/
def Int64ToBoolIValue (d : DLTensor) (is_list : Bool) : Except RunError IValue :=
  if is_list then do
    pure (IValue.boolList ((← readList d).map (· ≠ 0)))
  else do
    pure (IValue.bool ((← readScalar d) ≠ 0))

/-- `at::fromDLPack`: the imported tensor carries the first abstract data
value; DLPack imports are dense, hence contiguous. -/
def fromDLPack (d : DLTensor) : Tensor :=
  { val := d.data.headD 0, contig := true }

/-- The `c10::TypeKind` values the source inspects. -/
inductive TypeKind where
  | TensorType
  | IntType
  | FloatType
  | BoolType
  | OptionalType
  | ListType
  | OtherType
deriving DecidableEq, Repr

/-- `c10::TypePtr` restricted to the structure the source discriminates on:
the interesting leaf kinds, one `Optional` wrapper, one `List` wrapper, and
an opaque `other` for everything else. -/
inductive CType where
  | tensor
  | int
  | float
  | bool
  | other
  | optional (t : CType)
  | list (t : CType)
deriving DecidableEq, Repr

/-- `type->kind()`. -/
def kindOf : CType → TypeKind
  | .tensor => .TensorType
  | .int => .IntType
  | .float => .FloatType
  | .bool => .BoolType
  | .other => .OtherType
  | .optional _ => .OptionalType
  | .list _ => .ListType

/-- `getElementType()` of an `OptionalType` or `ListType` (the source only
calls it in the branch where the cast is valid; on other types the model
returns the type itself, which those branches never see). -/
def getElementType : CType → CType
  | .optional t => t
  | .list t => t
  | t => t

/-- The `ATenOperator` cache entry: the resolved operator (abstracted to an
opaque handle into the torch registry), argument count, per-argument element
kinds with optional/list wrappers unwrapped, list/optional flags, default
values, and return count. -/
structure ATenOperator where
  op : Nat
  argument_size : Nat
  elem_kinds : List TypeKind
  is_list_arguments : List Bool
  is_optional_arguments : List Bool
  default_values : List (Option IValue)
  return_size : Nat
deriving DecidableEq, Repr

/-- `ATenOperator::ToIValueArgument(dlpack, index)`: `dlpack = none` models a
null `DLManagedTensor*`.  Mirrors the source: assert `index < argument_size`;
assert `dlpack || is_optional || default_values[index]`; null optional gives
`IValue(c10::nullopt)`, null non-optional gives the default; otherwise
dispatch on the element kind with the dtype assertions of each branch,
including the int64→bool compatibility path.  Out-of-range metadata-vector
reads are undefined behaviour, modelled as errors. -/
def ATenOperator.ToIValueArgument (aten_op : ATenOperator) (dlpack : Option DLTensor)
    (index : Nat) : Except RunError IValue := do
  if index < aten_op.argument_size then
    let is_optional ← match aten_op.is_optional_arguments.get? index with
      | some b => pure b
      | none => throw .assertFail
    let defVal ← match aten_op.default_values.get? index with
      | some v => pure v
      | none => throw .assertFail
    if dlpack.isSome || is_optional || defVal.isSome then
      match dlpack with
      | none =>
          if is_optional then
            -- Optional argument always has no default value.
            pure IValue.none
          else
            match defVal with
            | some v => pure v
            | none => throw .assertFail
      | some d =>
          let is_list ← match aten_op.is_list_arguments.get? index with
            | some b => pure b
            | none => throw .assertFail
          match aten_op.elem_kinds.get? index with
          | some .TensorType => pure (IValue.tensor (fromDLPack d))
          | some .IntType =>
              if d.code == .kDLInt && d.bits == 64 then toIValueInt d is_list
              else throw .assertFail
          | some .FloatType =>
              if d.code == .kDLFloat && d.bits == 32 then toIValueFloat d is_list
              else throw .assertFail
          | some .BoolType =>
              if d.code == .kDLInt && d.bits == 64 then
                Int64ToBoolIValue d is_list
              else if d.code == .kDLUInt && d.bits == 8 then
                toIValueBool d is_list
              else throw .assertFail
          | some _ => throw .assertFail
          | none => throw .assertFail
    else throw .assertFail
  else throw .assertFail

/-! ## The operator cache (`ATenOperatorCache::GetOperator`) -/

/-- One `c10::Argument` of a function schema: its type and optional default
value. -/
structure SchemaArgument where
  type : CType
  default_value : Option IValue
deriving DecidableEq, Repr

/-- The part of `c10::FunctionSchema` the source reads: `arguments()` and
`returns()` (return entries reduced to their types). -/
structure FunctionSchema where
  arguments : List SchemaArgument
  returns : List CType
deriving DecidableEq, Repr

/-- A registered `torch::jit::Operator`: an opaque handle standing for the
shared pointer, plus its schema. -/
structure TorchOp where
  handle : Nat
  schema : FunctionSchema
deriving DecidableEq, Repr

/-- The torch operator registry, supplied as a parameter: it is host state
the extension only queries through `torch::jit::findOperatorFor`. -/
abbrev Registry := List ((String × String) × TorchOp)

/-- `torch::jit::findOperatorFor(c10::OperatorName(op_name, overload_name))`. -/
def findOperatorFor (reg : Registry) (key : String × String) : Option TorchOp :=
  (reg.find? (·.1 == key)).map (·.2)

/-- The per-argument body of the schema loop in `GetOperator` (lines 143-160):
compute the kind, unwrap one `Optional` wrapper and then one `List` wrapper,
record the flags and the default value, and assert that a tensor argument is
never a list. -/
def deriveArgMeta (argument : SchemaArgument) : Except RunError (TypeKind × Bool × Bool × Option IValue) := do
  let type := argument.type
  let elem_type := kindOf type
  let is_optional := elem_type == .OptionalType
  let is_list := elem_type == .ListType
  let (type, elem_type, is_list) :=
    if is_optional then
      let type := getElementType type
      let elem_type := kindOf type
      (type, elem_type, elem_type == .ListType)
    else (type, elem_type, is_list)
  let elem_type := if is_list then kindOf (getElementType type) else elem_type
  if elem_type == .TensorType && is_list then throw .assertFail
  else pure (elem_type, is_list, is_optional, argument.default_value)

/-- The cache-miss body of `GetOperator`: build the `ATenOperator` entry from
the resolved operator's schema, asserting that every return is a tensor. -/
def buildATenOperator (op : TorchOp) : Except RunError ATenOperator := do
  let metas ← mapE deriveArgMeta op.schema.arguments
  if op.schema.returns.all (fun ret => kindOf ret == .TensorType) then
    pure { op := op.handle,
           argument_size := op.schema.arguments.length,
           elem_kinds := metas.map (·.1),
           is_list_arguments := metas.map (·.2.1),
           is_optional_arguments := metas.map (·.2.2.1),
           default_values := metas.map (·.2.2.2),
           return_size := op.schema.returns.length }
  else throw .assertFail

/-- The `ops_` map of `ATenOperatorCache`, as an association list keyed by
`(op_name, overload_name)`. -/
abbrev OpCache := List ((String × String) × ATenOperator)

/-- `ops_.find(key)` / `ops_.at(key)`. -/
def lookupOp (ops : OpCache) (key : String × String) : Option ATenOperator :=
  (ops.find? (·.1 == key)).map (·.2)

/-- `ATenOperatorCache::GetOperator(op_name, overload_name)`: on a miss,
resolve the operator in the registry (asserting it exists), derive its
metadata and insert it; on a hit return the cached entry.  Instrumented with
the number of registry resolutions performed (0 or 1), so that "derives only
on the first call" is statable. -/
def GetOperator (reg : Registry) (ops : OpCache) (op_name overload_name : String) :
    Except RunError (ATenOperator × OpCache × Nat) :=
  match lookupOp ops (op_name, overload_name) with
  | some aten_op => .ok (aten_op, ops, 0)
  | none =>
      match findOperatorFor reg (op_name, overload_name) with
      | some op =>
          match buildATenOperator op with
          | .error e => .error e
          | .ok aten_op => .ok (aten_op, ops ++ [((op_name, overload_name), aten_op)], 1)
      | none => .error .assertFail

/-! ## The autograd-context cache (`AutogradContextCache`) -/

/-- Two's-complement wrap of a call counter to a signed 64-bit value: the
value the `static std::atomic<int64_t>` counter holds after `k` increments
from 0 (atomic integer arithmetic wraps modulo `2^64`). -/
def wrap64 (k : Nat) : Int :=
  if k % 2 ^ 64 < 2 ^ 63 then ((k % 2 ^ 64 : Nat) : Int)
  else ((k % 2 ^ 64 : Nat) : Int) - 2 ^ 64

/-- `AutogradContextCache::CreateId()`: the id issued by the `k`-th call
(counting from 0) of `context_id_++`. -/
def CreateId (count : Nat) : Int := wrap64 count

/-- `AutogradContextCache`: the number of `CreateId` calls made so far over
the cache's lifetime, and the `autograd_contexts_` map as an association
list.  Generic in the stored context type. -/
structure AutogradContextCache (α : Type) where
  createCount : Nat
  autograd_contexts : List (Int × α)
deriving Repr

/-- `AutogradContextCache::Insert`: draw an id from the counter and
`emplace` the context under it, returning the id.  `unordered_map::emplace`
inserts only if the key is absent: when the counter has wrapped far enough
that the issued id still maps to a live entry, the old entry is kept and the
new context is silently dropped. -/
def AutogradContextCache.Insert (c : AutogradContextCache α) (autograd_context : α) :
    Int × AutogradContextCache α :=
  (CreateId c.createCount,
   { createCount := c.createCount + 1,
     autograd_contexts :=
       if (c.autograd_contexts.find? (·.1 == CreateId c.createCount)).isSome then
         c.autograd_contexts
       else (CreateId c.createCount, autograd_context) :: c.autograd_contexts })

/-- `AutogradContextCache::Pop`: assert the id is present, return the stored
context and erase that entry. -/
def AutogradContextCache.Pop (c : AutogradContextCache α) (context_id : Int) :
    Except RunError (α × AutogradContextCache α) :=
  match c.autograd_contexts.find? (·.1 == context_id) with
  | some entry =>
      .ok (entry.2,
           { c with autograd_contexts := c.autograd_contexts.eraseP (·.1 == context_id) })
  | none => .error .assertFail

/-! ## The autograd graph and the two queue-driven walks

The autograd tape is host state built by torch during forward execution; it
enters the model as an explicit finite graph: `succ u` are the targets of
`u->next_edges()`, `isAccum v` is the check
`edge.function->name() == "torch::autograd::AccumulateGrad"`, and `keyOf v`
is the `grad_ptr_to_indices` lookup keyed by `&accu_grad_fn->variable.grad()`
(addresses abstracted away; the lookup result is what the walk consumes). -/
structure AGraph (n m : Nat) where
  succ : Fin n → List (Fin n)
  isAccum : Fin n → Bool
  keyOf : Fin n → Option (Fin m)

/-- The accumulate-grad edge handling of the forward walk (lines 282-287):
look the accumulator's grad address up in `grad_ptr_to_indices` and fill its
`input_grad_fns` slot only if the slot is still empty. -/
def assignFound (G : AGraph n m) (v : Fin n) (found : Fin m → Option (Fin n)) :
    Fin m → Option (Fin n) :=
  match G.keyOf v with
  | some i => if (found i).isNone then Function.update found i (some v) else found
  | none => found

/-- The inner `for (Edge edge : edges)` loop of the forward walk
(lines 280-291): accumulate-grad edges whose grad address is keyed and whose
slot is still empty fill `input_grad_fns`; other edges are pushed.  Returns
the updated assignment and the pushed nodes in edge order. -/
def processEdges (G : AGraph n m) : List (Fin n) → (Fin m → Option (Fin n)) →
    (Fin m → Option (Fin n)) × List (Fin n)
  | [], found => (found, [])
  | v :: rest, found =>
      if G.isAccum v then
        processEdges G rest (assignFound G v found)
      else
        ((processEdges G rest found).1, v :: (processEdges G rest found).2)

/-- The forward `while (!grad_fn_queue.empty())` walk (lines 276-292), with
explicit fuel; `none` means the fuel ran out before the queue emptied. -/
def forwardRun (G : AGraph n m) : Nat → List (Fin n) → (Fin m → Option (Fin n)) →
    Option (Fin m → Option (Fin n))
  | _, [], found => some found
  | 0, _ :: _, _ => none
  | fuel + 1, u :: queue, found =>
      forwardRun G fuel (queue ++ (processEdges G (G.succ u) found).2)
        (processEdges G (G.succ u) found).1

/-- The per-return export step of `ExecuteInternal` (line 238-239): the
popped value must be a tensor; it is exported from a contiguous tensor. -/
def exportRet (ret : IValue) : Except RunError Tensor :=
  match ret with
  | IValue.tensor tensor => .ok (ensureContiguous tensor)
  | _ => .error RunError.assertFail

/-- `ExecuteInternal(op, arguments, return_size, result)`: push the arguments,
invoke the operation once (`run` maps the argument stack to the stack the
operation leaves behind), pop `return_size` values — asserting the stack is
deep enough — and export each as a DLPack tensor from a contiguous tensor,
in stack (= schema) order.  Returns the first output and the exported
tensors. -/
def ExecuteInternal (run : List IValue → List IValue) (arguments : List IValue)
    (return_size : Nat) : Except RunError (IValue × List Tensor) :=
  if return_size ≤ (run arguments).length then
    match mapE exportRet ((run arguments).drop ((run arguments).length - return_size)) with
    | .error e => .error e
    | .ok result =>
        .ok (((run arguments).drop ((run arguments).length - return_size)).headD IValue.none,
             result)
  else .error .assertFail

/-- `AutogradContext`: the output's `grad_fn` and the accumulate-grad node
saved for each gradient-requiring input. -/
structure AutogradContext (n m : Nat) where
  output_grad_fn : Fin n
  input_grad_fns : List (Fin n)

/-- The argument read of the `requires_grad` loop (lines 261-262):
`is_optional ? arguments[i].toOptional<at::Tensor>().value() :
arguments[i].toTensor()` — either way the argument must hold a tensor. -/
def requireTensor (a : IValue) : Except RunError Tensor :=
  match a with
  | IValue.tensor t => .ok t
  | _ => .error RunError.assertFail

/-- The final assertion loop of the forward walk (lines 294-296): every
`input_grad_fns` slot must have been filled. -/
def requireFound (found : Fin m → Option (Fin n)) (i : Fin m) : Except RunError (Fin n) :=
  match found i with
  | some v => .ok v
  | none => .error RunError.assertFail

/-- `ExecuteATenOperator(op_name, overload_name, dlpacks, requires_grad,
p_context_id)` after the operator has been resolved from the cache:
`run` is the operation behind `aten_op.op`, `G`/`root` are the autograd tape
the execution builds and the output's `grad_fn`, `m` is
`requires_grad.size()` (the source reads only the size of that vector), and
`wantCtx` is `p_context_id != nullptr`.  The second component instruments the
model with the list of argument stacks the operation was invoked on, kept
even when a later assertion fails, so "the assertion fires before/after
execution" is statable.  Returns the exported results, the context id
written through `p_context_id`, and the updated context cache. -/
def ExecuteATenOperator {n m : Nat} (aten_op : ATenOperator) (run : List IValue → List IValue)
    (G : AGraph n m) (root : Fin n) (fuel : Nat)
    (cache : AutogradContextCache (AutogradContext n m))
    (dlpacks : List (Option DLTensor)) (wantCtx : Bool) :
    Except RunError (List Tensor × Option Int × AutogradContextCache (AutogradContext n m))
      × List (List IValue) :=
  if dlpacks.length = aten_op.argument_size then
    match mapE (fun p => aten_op.ToIValueArgument p.2 p.1) dlpacks.enum with
    | .error e => (.error e, [])
    | .ok arguments =>
      -- lines 259-265: for each i < requires_grad.size(), read arguments[i],
      -- assert it is (an optional of) a tensor, switch on requires_grad and key
      -- its grad address (the resulting map is `G.keyOf`)
      if m ≤ arguments.length then
        match mapE requireTensor (arguments.take m) with
        | .error e => (.error e, [])
        | .ok _ =>
          if wantCtx || m == 0 then
            if wantCtx then
              match ExecuteInternal run arguments aten_op.return_size with
              | .error e => (.error e, [arguments])
              | .ok (first_output, result) =>
                match first_output with
                | IValue.tensor _ =>
                  match forwardRun G fuel [root] (fun _ => none) with
                  | none => (.error .fuelOut, [arguments])
                  | some found =>
                    match mapE (requireFound found) (List.finRange m) with
                    | .error e => (.error e, [arguments])
                    | .ok input_grad_fns =>
                      let r := cache.Insert ⟨root, input_grad_fns⟩
                      (.ok (result, some r.1, r.2), [arguments])
                | _ => (.error .assertFail, [arguments])
            else
              match ExecuteInternal run arguments aten_op.return_size with
              | .error e => (.error e, [arguments])
              | .ok pr => (.ok (pr.2, none, cache), [arguments])
          else (.error .assertFail, [])
      else (.error .assertFail, [])
  else (.error .assertFail, [])

/-! ### The backward walk (`ExecuteATenOpBackward`) -/

/-- In-place `lhs += rhs` on tensors: the value is the sum, the layout (and
hence contiguity) of the left-hand side is kept. -/
def addTensor (t g : Tensor) : Tensor := { val := t.val + g.val, contig := t.contig }

/-- The mutable state of the backward walk: the grad slot of each node's
variable (`none` models an undefined grad tensor), the `accu_set` of
accumulators already assigned, and — instrumentation — the log of gradients
delivered to accumulate-grad nodes, in delivery order. -/
structure BackState (n : Nat) where
  grads : Fin n → Option Tensor
  seen : List (Fin n)
  log : List (Fin n × Tensor)

/-- The inner edge loop of the backward walk (lines 317-331): deliver each
gradient to its edge; accumulate-grad edges get their variable's grad
assigned on first delivery (inserting into `accu_set`) and added to
afterwards; other edges are pushed with their gradient.  `+=` on an undefined
grad tensor would throw, modelled as an assertion error. -/
def deliver (G : AGraph n m) : List (Fin n × Tensor) → BackState n →
    Except RunError (BackState n × List (Fin n × Tensor))
  | [], st => .ok (st, [])
  | (v, g) :: rest, st =>
      if G.isAccum v then
        if v ∈ st.seen then
          match st.grads v with
          | some t =>
              deliver G rest
                ⟨Function.update st.grads v (some (addTensor t g)), st.seen, st.log ++ [(v, g)]⟩
          | none => .error .assertFail
        else
          deliver G rest
            ⟨Function.update st.grads v (some g), v :: st.seen, st.log ++ [(v, g)]⟩
      else
        match deliver G rest st with
        | .error e => .error e
        | .ok r => .ok (r.1, (v, g) :: r.2)

/-- The backward `while (!execution_queue.empty())` walk (lines 311-332):
pop a `(node, gradient)` unit, apply the node's backward function (`apply`,
host-owned), assert one gradient per edge, and deliver them.  Fuel as in the
forward walk. -/
def backRun (G : AGraph n m) (apply : Fin n → Tensor → List Tensor) :
    Nat → List (Fin n × Tensor) → BackState n → Except RunError (BackState n)
  | _, [], st => .ok st
  | 0, _ :: _, _ => .error .fuelOut
  | fuel + 1, (u, gin) :: queue, st =>
      let gradients := apply u gin
      let edges := G.succ u
      if gradients.length = edges.length then
        match deliver G (edges.zip gradients) st with
        | .error e => .error e
        | .ok r => backRun G apply fuel (queue ++ r.2) r.1
      else .error .assertFail

/-- The final export loop of `ExecuteATenOpBackward` (lines 335-338): read
each saved accumulator's grad and export it from a contiguous tensor;
exporting an undefined grad tensor would throw. -/
def exportGrad (grads : Fin n → Option Tensor) (a : Fin n) : Except RunError Tensor :=
  match grads a with
  | some intput_grad => .ok (ensureContiguous intput_grad)
  | none => .error RunError.assertFail

/-- `ExecuteATenOpBackward(dlpack, context_id)`: pop the saved context,
seed the queue with the output's `grad_fn` and the incoming gradient, run the
walk, then export each saved input accumulator's grad (contiguous, in input
index order).  Exporting an undefined grad tensor would throw, modelled as an
assertion error.  Instrumented with the walk's delivery log. -/
def ExecuteATenOpBackward {n m : Nat} (G : AGraph n m) (apply : Fin n → Tensor → List Tensor)
    (cache : AutogradContextCache (AutogradContext n m)) (fuel : Nat)
    (dlpack : DLTensor) (context_id : Int) :
    Except RunError (List Tensor × AutogradContextCache (AutogradContext n m)
      × List (Fin n × Tensor)) :=
  match cache.Pop context_id with
  | .error e => .error e
  | .ok (autograd_context, cache') =>
      match backRun G apply fuel [(autograd_context.output_grad_fn, fromDLPack dlpack)]
          ⟨fun _ => none, [], []⟩ with
      | .error e => .error e
      | .ok st =>
          match mapE (exportGrad st.grads) autograd_context.input_grad_fns with
          | .error e => .error e
          | .ok result => .ok (result, cache', st.log)

/-- The gradients delivered to accumulator `a` during a walk with delivery
log `log`, in delivery order. -/
def deliveredTo (log : List (Fin n × Tensor)) (a : Fin n) : List Tensor :=
  (log.filter (fun p => p.1 == a)).map (·.2)

/-! ### Specification-side notions for the walks -/

/-- The nodes the forward walk starting from queue `q` expands: the queue's
elements, and every non-accumulate successor of an expanded node (those are
exactly the nodes the loop pushes). -/
inductive Expanded (G : AGraph n m) (q : List (Fin n)) : Fin n → Prop
  | base {u : Fin n} : u ∈ q → Expanded G q u
  | step {u v : Fin n} : Expanded G q u → v ∈ G.succ u → G.isAccum v = false → Expanded G q v

/-- Invariant of the backward walk relating the grad slots to the delivery
log: a node's grad is unset exactly when nothing was delivered to it and
otherwise holds the sum of everything delivered so far, and `accu_set`
membership coincides with having received a delivery. -/
def GoodState (st : BackState n) : Prop := ∀ a : Fin n,
  ((st.grads a).map Tensor.val =
    if deliveredTo st.log a = [] then none
    else some (((deliveredTo st.log a).map Tensor.val).sum)) ∧
  (a ∈ st.seen ↔ deliveredTo st.log a ≠ [])

/-- Path-counting weight of a node, cut off at recursion depth `b`: with a
topological rank in hand the cutoff is irrelevant (see `weightAux_stable`)
and the weight strictly dominates the work the queue walks spend below the
node. -/
def weightAux (G : AGraph n m) : Nat → Fin n → Nat
  | 0, _ => 1
  | b + 1, u => 1 + ((G.succ u).map (weightAux G b)).sum

/-- The stabilised weight of a node under a topological rank. -/
def wt (G : AGraph n m) (rank : Fin n → Nat) (u : Fin n) : Nat :=
  weightAux G (rank u + 1) u

/-- Termination measure of the forward walk's queue. -/
def fwMeasure (G : AGraph n m) (rank : Fin n → Nat) (q : List (Fin n)) : Nat :=
  (q.map (wt G rank)).sum

/-- Termination measure of the backward walk's queue. -/
def bkMeasure (G : AGraph n m) (rank : Fin n → Nat) (q : List (Fin n × Tensor)) : Nat :=
  ((q.map Prod.fst).map (wt G rank)).sum

end OrtAten

namespace OrtRocm

/-- `miopenReduceTensorOp_t` as declared in `reduction_ops.h`. -/
inductive miopenReduceTensorOp_t where
  | MIOPEN_REDUCE_TENSOR_ADD
  | MIOPEN_REDUCE_TENSOR_MUL
  | MIOPEN_REDUCE_TENSOR_MIN
  | MIOPEN_REDUCE_TENSOR_MAX
  | MIOPEN_REDUCE_TENSOR_AVG
  | MIOPEN_REDUCE_TENSOR_NORM1
  | MIOPEN_REDUCE_TENSOR_NORM2
deriving DecidableEq, Repr

/-- `miopenReduceTensorIndices_t` as declared in `reduction_ops.h`. -/
inductive miopenReduceTensorIndices_t where
  | MIOPEN_REDUCE_TENSOR_NO_INDICES
  | MIOPEN_REDUCE_TENSOR_FLATTENED_INDICES
deriving DecidableEq, Repr

/-- The default value of the `ReduceTensorIndices` template parameter of
`ComputeImpl`, used by every kernel that does not pass it explicitly. -/
def defaultReduceTensorIndices : miopenReduceTensorIndices_t :=
  .MIOPEN_REDUCE_TENSOR_NO_INDICES

/-- The four boolean members of `ReduceKernel` that steer `ComputeImpl`. -/
structure ReduceKernelFlags where
  calculate_log_ : Bool
  calculate_sqt_ : Bool
  log_sum_exp_ : Bool
  fast_reduction_ : Bool
deriving DecidableEq, Repr

/-- The `ReduceKernel` base-class constructor: all four flags initialised to
`false`. -/
def ReduceKernel_ctor : ReduceKernelFlags :=
  { calculate_log_ := false, calculate_sqt_ := false,
    log_sum_exp_ := false, fast_reduction_ := false }

/-- What a `ComputeInternal` override hands to `ComputeImpl`: the miopen
reduce op argument and the `ReduceTensorIndices` template argument. -/
structure MiopenDispatch where
  reduce_op : miopenReduceTensorOp_t
  indices : miopenReduceTensorIndices_t
deriving DecidableEq, Repr

/-- `ArgMax` constructor (base flags unchanged). -/
def ArgMax_ctor : ReduceKernelFlags := ReduceKernel_ctor
/-- `ArgMax::ComputeInternal`. -/
def ArgMax_ComputeInternal : MiopenDispatch :=
  ⟨.MIOPEN_REDUCE_TENSOR_MAX, .MIOPEN_REDUCE_TENSOR_FLATTENED_INDICES⟩

/-- `ArgMin` constructor (base flags unchanged). -/
def ArgMin_ctor : ReduceKernelFlags := ReduceKernel_ctor
/-- `ArgMin::ComputeInternal`. -/
def ArgMin_ComputeInternal : MiopenDispatch :=
  ⟨.MIOPEN_REDUCE_TENSOR_MIN, .MIOPEN_REDUCE_TENSOR_FLATTENED_INDICES⟩

/-- `ReduceL1` constructor (base flags unchanged). -/
def ReduceL1_ctor : ReduceKernelFlags := ReduceKernel_ctor
/-- `ReduceL1::ComputeInternal`. -/
def ReduceL1_ComputeInternal : MiopenDispatch :=
  ⟨.MIOPEN_REDUCE_TENSOR_NORM1, defaultReduceTensorIndices⟩

/-- `ReduceL2` constructor (base flags unchanged). -/
def ReduceL2_ctor : ReduceKernelFlags := ReduceKernel_ctor
/-- `ReduceL2::ComputeInternal`. -/
def ReduceL2_ComputeInternal : MiopenDispatch :=
  ⟨.MIOPEN_REDUCE_TENSOR_NORM2, defaultReduceTensorIndices⟩

/-- `ReduceMax` constructor (base flags unchanged). -/
def ReduceMax_ctor : ReduceKernelFlags := ReduceKernel_ctor
/-- `ReduceMax::ComputeInternal`. -/
def ReduceMax_ComputeInternal : MiopenDispatch :=
  ⟨.MIOPEN_REDUCE_TENSOR_MAX, defaultReduceTensorIndices⟩

/-- `ReduceMean` constructor (base flags unchanged). -/
def ReduceMean_ctor : ReduceKernelFlags := ReduceKernel_ctor
/-- `ReduceMean::ComputeInternal`. -/
def ReduceMean_ComputeInternal : MiopenDispatch :=
  ⟨.MIOPEN_REDUCE_TENSOR_AVG, defaultReduceTensorIndices⟩

/-- `ReduceMin` constructor (base flags unchanged). -/
def ReduceMin_ctor : ReduceKernelFlags := ReduceKernel_ctor
/-- `ReduceMin::ComputeInternal`. -/
def ReduceMin_ComputeInternal : MiopenDispatch :=
  ⟨.MIOPEN_REDUCE_TENSOR_MIN, defaultReduceTensorIndices⟩

/-- `ReduceProd` constructor (base flags unchanged). -/
def ReduceProd_ctor : ReduceKernelFlags := ReduceKernel_ctor
/-- `ReduceProd::ComputeInternal`. -/
def ReduceProd_ComputeInternal : MiopenDispatch :=
  ⟨.MIOPEN_REDUCE_TENSOR_MUL, defaultReduceTensorIndices⟩

/-- `ReduceSum` constructor: sets `fast_reduction_ = true`. -/
def ReduceSum_ctor : ReduceKernelFlags := { ReduceKernel_ctor with fast_reduction_ := true }
/-- `ReduceSum::ComputeInternal`. -/
def ReduceSum_ComputeInternal : MiopenDispatch :=
  ⟨.MIOPEN_REDUCE_TENSOR_ADD, defaultReduceTensorIndices⟩

/-- `ReduceLogSum` constructor: sets `calculate_log_ = true`. -/
def ReduceLogSum_ctor : ReduceKernelFlags := { ReduceKernel_ctor with calculate_log_ := true }
/-- `ReduceLogSum::ComputeInternal`. -/
def ReduceLogSum_ComputeInternal : MiopenDispatch :=
  ⟨.MIOPEN_REDUCE_TENSOR_ADD, defaultReduceTensorIndices⟩

/-- `ReduceSumSquare` constructor: sets `calculate_sqt_ = true`. -/
def ReduceSumSquare_ctor : ReduceKernelFlags := { ReduceKernel_ctor with calculate_sqt_ := true }
/-- `ReduceSumSquare::ComputeInternal`. -/
def ReduceSumSquare_ComputeInternal : MiopenDispatch :=
  ⟨.MIOPEN_REDUCE_TENSOR_ADD, defaultReduceTensorIndices⟩

/-- `ReduceLogSumExp` constructor: sets `log_sum_exp_ = true`. -/
def ReduceLogSumExp_ctor : ReduceKernelFlags := { ReduceKernel_ctor with log_sum_exp_ := true }
/-- `ReduceLogSumExp::ComputeInternal`. -/
def ReduceLogSumExp_ComputeInternal : MiopenDispatch :=
  ⟨.MIOPEN_REDUCE_TENSOR_ADD, defaultReduceTensorIndices⟩

end OrtRocm

namespace OrtAten

/-! ### Concrete fixtures used by witness theorems -/

/-- A concrete cache entry: schema `(Tensor a, int b = 5, int? c, bool d) -> Tensor`
shaped metadata, exercising optional, defaulted and bool arguments. -/
def exOp : ATenOperator :=
  { op := 0,
    argument_size := 4,
    elem_kinds := [.TensorType, .IntType, .IntType, .BoolType],
    is_list_arguments := [false, false, false, false],
    is_optional_arguments := [false, false, true, false],
    default_values := [none, some (.int 5), none, none],
    return_size := 1 }

/-- A two-node autograd tape: node 0 is the output's backward node with a
single edge to node 1, the accumulator of the only gradient-requiring input. -/
def exGraph : AGraph 2 1 :=
  { succ := fun u => if u = 0 then [1] else [],
    isAccum := fun u => u = 1,
    keyOf := fun u => if u = 1 then some 0 else none }

/-- Backward functions for `exGraph`: node 0 passes its incoming gradient
through to its single edge. -/
def exApply : Fin 2 → Tensor → List Tensor :=
  fun u g => if u = 0 then [g] else []

/-- A topological rank for `exGraph`. -/
def exRank : Fin 2 → Nat := fun u => if u = 0 then 1 else 0

/-- A one-entry torch registry fixture. -/
def exRegistry : Registry :=
  [(("aten::relu", ""), { handle := 7, schema := { arguments := [{ type := .tensor, default_value := none }], returns := [.tensor] } })]

/-- A one-tensor-argument, one-return cache entry fixture. -/
def exOp1 : ATenOperator :=
  { op := 1, argument_size := 1, elem_kinds := [.TensorType],
    is_list_arguments := [false], is_optional_arguments := [false],
    default_values := [none], return_size := 1 }

/-- A concrete one-element float tensor with value 5. -/
def exDL : DLTensor := ⟨.kDLFloat, 32, 1, some [1], [5]⟩

/-- An identity operation fixture: the stack it leaves is its input stack. -/
def exRun : List IValue → List IValue := fun arguments => arguments

end OrtAten

/-! ## Theorems -/

namespace OrtAten

theorem mapE_ok_length (f : α → Except ε β) :
    ∀ l r, mapE f l = .ok r → r.length = l.length := by
  intro l
  induction l with
  | nil => intro r h; cases h; rfl
  | cons a l ih =>
      intro r h
      unfold mapE at h
      cases hfa : f a with
      | error e => rw [hfa] at h; cases h
      | ok b =>
          rw [hfa] at h
          cases hml : mapE f l with
          | error e => rw [hml] at h; cases h
          | ok bs =>
              rw [hml] at h
              cases h
              simp [ih bs hml]

theorem mapE_ok_get (f : α → Except ε β) :
    ∀ l r, mapE f l = .ok r → ∀ (i : Nat) (a : α), l[i]? = some a →
      ∃ b, f a = .ok b ∧ r[i]? = some b := by
  intro l
  induction l with
  | nil => intro r _ i a ha; cases i <;> cases ha
  | cons x l ih =>
      intro r h i a ha
      unfold mapE at h
      cases hfa : f x with
      | error e => rw [hfa] at h; cases h
      | ok b =>
          rw [hfa] at h
          cases hml : mapE f l with
          | error e => rw [hml] at h; cases h
          | ok bs =>
              rw [hml] at h
              cases h
              cases i with
              | zero =>
                  rw [List.getElem?_cons_zero] at ha
                  cases ha
                  exact ⟨b, hfa, by rw [List.getElem?_cons_zero]⟩
              | succ i =>
                  rw [List.getElem?_cons_succ] at ha
                  obtain ⟨b2, h1, h2⟩ := ih bs hml i a ha
                  exact ⟨b2, h1, by rw [List.getElem?_cons_succ]; exact h2⟩

theorem mapE_ok_mem (f : α → Except ε β) :
    ∀ l r, mapE f l = .ok r → ∀ b ∈ r, ∃ a ∈ l, f a = .ok b := by
  intro l
  induction l with
  | nil => intro r h b hb; cases h; cases hb
  | cons x l ih =>
      intro r h b hb
      unfold mapE at h
      cases hfa : f x with
      | error e => rw [hfa] at h; cases h
      | ok b0 =>
          rw [hfa] at h
          cases hml : mapE f l with
          | error e => rw [hml] at h; cases h
          | ok bs =>
              rw [hml] at h
              cases h
              rcases List.mem_cons.mp hb with hb | hb
              · exact ⟨x, List.mem_cons_self x l, hb ▸ hfa⟩
              · obtain ⟨a, hal, hfa'⟩ := ih bs hml b hb
                exact ⟨a, List.mem_cons_of_mem x hal, hfa'⟩

end OrtAten

namespace OrtRocm

/-- **C3**: each reduction kernel's `ComputeInternal` dispatches the miopen
reduce op matching its operator: `ReduceSum`, `ReduceLogSum`,
`ReduceSumSquare` and `ReduceLogSumExp` all dispatch
`MIOPEN_REDUCE_TENSOR_ADD` and are distinguished only by the flags
`calculate_log_`, `calculate_sqt_` and `log_sum_exp_`, each set to `true` by
exactly its own class (all four flags default to `false` in the
`ReduceKernel` constructor); `ReduceMean` dispatches AVG, `ReduceMax` MAX,
`ReduceMin` MIN, `ReduceProd` MUL, `ReduceL1` NORM1, `ReduceL2` NORM2;
`ArgMax` and `ArgMin` dispatch MAX and MIN with
`MIOPEN_REDUCE_TENSOR_FLATTENED_INDICES` while every other kernel uses
`MIOPEN_REDUCE_TENSOR_NO_INDICES`; and only `ReduceSum` sets
`fast_reduction_` to `true`. -/
theorem reduce_dispatch_table :
    (ReduceSum_ComputeInternal.reduce_op = .MIOPEN_REDUCE_TENSOR_ADD ∧
     ReduceLogSum_ComputeInternal.reduce_op = .MIOPEN_REDUCE_TENSOR_ADD ∧
     ReduceSumSquare_ComputeInternal.reduce_op = .MIOPEN_REDUCE_TENSOR_ADD ∧
     ReduceLogSumExp_ComputeInternal.reduce_op = .MIOPEN_REDUCE_TENSOR_ADD) ∧
    (ReduceMean_ComputeInternal.reduce_op = .MIOPEN_REDUCE_TENSOR_AVG ∧
     ReduceMax_ComputeInternal.reduce_op = .MIOPEN_REDUCE_TENSOR_MAX ∧
     ReduceMin_ComputeInternal.reduce_op = .MIOPEN_REDUCE_TENSOR_MIN ∧
     ReduceProd_ComputeInternal.reduce_op = .MIOPEN_REDUCE_TENSOR_MUL ∧
     ReduceL1_ComputeInternal.reduce_op = .MIOPEN_REDUCE_TENSOR_NORM1 ∧
     ReduceL2_ComputeInternal.reduce_op = .MIOPEN_REDUCE_TENSOR_NORM2 ∧
     ArgMax_ComputeInternal.reduce_op = .MIOPEN_REDUCE_TENSOR_MAX ∧
     ArgMin_ComputeInternal.reduce_op = .MIOPEN_REDUCE_TENSOR_MIN) ∧
    (ArgMax_ComputeInternal.indices = .MIOPEN_REDUCE_TENSOR_FLATTENED_INDICES ∧
     ArgMin_ComputeInternal.indices = .MIOPEN_REDUCE_TENSOR_FLATTENED_INDICES ∧
     [ReduceL1_ComputeInternal, ReduceL2_ComputeInternal, ReduceMax_ComputeInternal,
      ReduceMean_ComputeInternal, ReduceMin_ComputeInternal, ReduceProd_ComputeInternal,
      ReduceSum_ComputeInternal, ReduceLogSum_ComputeInternal, ReduceSumSquare_ComputeInternal,
      ReduceLogSumExp_ComputeInternal].all
        (fun dispatch => dispatch.indices == .MIOPEN_REDUCE_TENSOR_NO_INDICES) = true) ∧
    (ReduceKernel_ctor = ⟨false, false, false, false⟩) ∧
    ([ArgMax_ctor, ArgMin_ctor, ReduceL1_ctor, ReduceL2_ctor, ReduceMax_ctor, ReduceMean_ctor,
      ReduceMin_ctor, ReduceProd_ctor, ReduceSum_ctor, ReduceLogSum_ctor, ReduceSumSquare_ctor,
      ReduceLogSumExp_ctor].map ReduceKernelFlags.calculate_log_
       = [false, false, false, false, false, false, false, false, false, true, false, false]) ∧
    ([ArgMax_ctor, ArgMin_ctor, ReduceL1_ctor, ReduceL2_ctor, ReduceMax_ctor, ReduceMean_ctor,
      ReduceMin_ctor, ReduceProd_ctor, ReduceSum_ctor, ReduceLogSum_ctor, ReduceSumSquare_ctor,
      ReduceLogSumExp_ctor].map ReduceKernelFlags.calculate_sqt_
       = [false, false, false, false, false, false, false, false, false, false, true, false]) ∧
    ([ArgMax_ctor, ArgMin_ctor, ReduceL1_ctor, ReduceL2_ctor, ReduceMax_ctor, ReduceMean_ctor,
      ReduceMin_ctor, ReduceProd_ctor, ReduceSum_ctor, ReduceLogSum_ctor, ReduceSumSquare_ctor,
      ReduceLogSumExp_ctor].map ReduceKernelFlags.log_sum_exp_
       = [false, false, false, false, false, false, false, false, false, false, false, true]) ∧
    ([ArgMax_ctor, ArgMin_ctor, ReduceL1_ctor, ReduceL2_ctor, ReduceMax_ctor, ReduceMean_ctor,
      ReduceMin_ctor, ReduceProd_ctor, ReduceSum_ctor, ReduceLogSum_ctor, ReduceSumSquare_ctor,
      ReduceLogSumExp_ctor].map ReduceKernelFlags.fast_reduction_
       = [false, false, false, false, false, false, false, false, true, false, false, false]) := by
  decide

end OrtRocm

namespace OrtAten

/-- **C7**: `ATenOperator::ToIValueArgument` called with a null `dlpack`
returns `IValue(nullopt)` when the argument at that index is optional and
returns the schema's default value when it is not; an internal assertion
fails when `dlpack` is null, the argument is not optional, and no default
value exists, and also when `index` is not less than `argument_size`. -/
theorem toIValueArgument_null_dlpack_spec (aten_op : ATenOperator) (index : Nat) :
    (index < aten_op.argument_size →
        aten_op.is_optional_arguments[index]? = some true →
        ∀ dv, aten_op.default_values[index]? = some dv →
        aten_op.ToIValueArgument none index = .ok IValue.none) ∧
    (index < aten_op.argument_size →
        aten_op.is_optional_arguments[index]? = some false → ∀ d,
        aten_op.default_values[index]? = some (some d) →
        aten_op.ToIValueArgument none index = .ok d) ∧
    (index < aten_op.argument_size →
        aten_op.is_optional_arguments[index]? = some false →
        aten_op.default_values[index]? = some none →
        aten_op.ToIValueArgument none index = .error .assertFail) ∧
    (¬ index < aten_op.argument_size →
        aten_op.ToIValueArgument none index = .error .assertFail) := by
  refine ⟨?_, ?_, ?_, ?_⟩
  · intro hidx hb dv hd
    simp [ATenOperator.ToIValueArgument, hidx, hb, hd]
    rfl
  · intro hidx hb d hd
    simp [ATenOperator.ToIValueArgument, hidx, hb, hd]
    rfl
  · intro hidx hb hd
    simp [ATenOperator.ToIValueArgument, hidx, hb, hd]
    rfl
  · intro hidx
    simp [ATenOperator.ToIValueArgument, hidx]
    rfl

/-- Witness for C7 on the concrete `exOp`: optional argument 2 maps to
`nullopt`, defaulted argument 1 maps to its default `5`, argument 0 (no
default, not optional) trips the assertion, and so does the out-of-range
index 4. -/
theorem toIValueArgument_null_dlpack_spec_witness :
    (exOp.ToIValueArgument none 2 = .ok IValue.none) ∧
    (exOp.ToIValueArgument none 1 = .ok (IValue.int 5)) ∧
    (exOp.ToIValueArgument none 0 = .error .assertFail) ∧
    (exOp.ToIValueArgument none 4 = .error .assertFail) :=
  ⟨(toIValueArgument_null_dlpack_spec exOp 2).1 (by decide) rfl none rfl,
   (toIValueArgument_null_dlpack_spec exOp 1).2.1 (by decide) rfl (.int 5) rfl,
   (toIValueArgument_null_dlpack_spec exOp 0).2.2.1 (by decide) rfl rfl,
   (toIValueArgument_null_dlpack_spec exOp 4).2.2.2 (by decide)⟩

end OrtAten

namespace OrtAten

/-- **C8**: `Int64ToBoolIValue` converts 64-bit integers to booleans by
nonzero test: in the list case it produces a boolean list of exactly the
input tensor's length whose `i`-th element is `data[i] != 0` in input order,
and in the scalar case the single value `data[0] != 0`; `ToIValueArgument`
applies this conversion exactly when a Bool-typed argument arrives as a
64-bit signed-integer tensor, and otherwise requires the tensor to be 8-bit
unsigned. -/
theorem int64_bool_conversion_spec (d : DLTensor) :
    (∀ len rest, d.ndim = 1 → d.shape = some (len :: rest) → 0 ≤ len →
      len.toNat ≤ d.data.length →
      ∃ bs, Int64ToBoolIValue d true = .ok (.boolList bs) ∧ bs.length = len.toNat ∧
        ∀ i, i < len.toNat → bs[i]? = (d.data[i]?).map (fun v => !decide (v = 0))) ∧
    (∀ v vs, scalarShapeOk d = true → d.data = v :: vs →
      Int64ToBoolIValue d false = .ok (.bool (!decide (v = 0)))) ∧
    (∀ (aten_op : ATenOperator) (index : Nat) (is_list is_opt : Bool) (dv : Option IValue),
      index < aten_op.argument_size →
      aten_op.elem_kinds[index]? = some .BoolType →
      aten_op.is_optional_arguments[index]? = some is_opt →
      aten_op.default_values[index]? = some dv →
      aten_op.is_list_arguments[index]? = some is_list →
      (d.code = .kDLInt → d.bits = 64 →
         aten_op.ToIValueArgument (some d) index = Int64ToBoolIValue d is_list) ∧
      (d.code = .kDLUInt → d.bits = 8 →
         aten_op.ToIValueArgument (some d) index = toIValueBool d is_list) ∧
      (¬(d.code = .kDLInt ∧ d.bits = 64) → ¬(d.code = .kDLUInt ∧ d.bits = 8) →
         aten_op.ToIValueArgument (some d) index = .error .assertFail)) := by
  refine ⟨?_, ?_, ?_⟩
  · intro len rest hnd hsh hlen hdata
    refine ⟨(d.data.take len.toNat).map (fun v => !decide (v = 0)), ?_, ?_, ?_⟩
    · simp [Int64ToBoolIValue, readList, hnd, hsh, hlen, hdata]
      rfl
    · rw [List.length_map, List.length_take]
      omega
    · intro i hi
      rw [List.getElem?_map, List.getElem?_take_of_lt hi]
  · intro v vs hshape hdata
    simp [Int64ToBoolIValue, readScalar, hshape, hdata]
    rfl
  · intro aten_op index is_list is_opt dv hidx hk ho hdv hl
    refine ⟨?_, ?_, ?_⟩
    · intro hc hb
      simp [ATenOperator.ToIValueArgument, hidx, hk, ho, hdv, hl, hc, hb]
    · intro hc hb
      simp [ATenOperator.ToIValueArgument, hidx, hk, ho, hdv, hl, hc, hb]
    · intro hc1 hc2
      have h1 : (d.code == DLCode.kDLInt && d.bits == 64) = false := by
        rcases Bool.eq_false_or_eq_true (d.code == DLCode.kDLInt && d.bits == 64) with h | h
        · simp only [Bool.and_eq_true, beq_iff_eq] at h
          exact absurd h hc1
        · exact h
      have h2 : (d.code == DLCode.kDLUInt && d.bits == 8) = false := by
        rcases Bool.eq_false_or_eq_true (d.code == DLCode.kDLUInt && d.bits == 8) with h | h
        · simp only [Bool.and_eq_true, beq_iff_eq] at h
          exact absurd h hc2
        · exact h
      simp [ATenOperator.ToIValueArgument, hidx, hk, ho, hdv, hl, h1, h2]
      rfl

/-- Witness for C8 on concrete tensors: an int64 list `[0, 2, -1]` decodes to
`[false, true, true]`, an int64 scalar `7` decodes to `true`; `exOp`'s
bool argument 3 routes an int64 tensor through `Int64ToBoolIValue`, a uint8
tensor through `ToIValue<bool>`, and rejects a float tensor. -/
theorem int64_bool_conversion_spec_witness :
    (Int64ToBoolIValue ⟨.kDLInt, 64, 1, some [3], [0, 2, -1]⟩ true
       = .ok (.boolList [false, true, true])) ∧
    (Int64ToBoolIValue ⟨.kDLInt, 64, 0, none, [7]⟩ false = .ok (.bool true)) ∧
    (exOp.ToIValueArgument (some ⟨.kDLInt, 64, 0, none, [7]⟩) 3
       = Int64ToBoolIValue ⟨.kDLInt, 64, 0, none, [7]⟩ false) ∧
    (exOp.ToIValueArgument (some ⟨.kDLUInt, 8, 0, none, [1]⟩) 3
       = toIValueBool ⟨.kDLUInt, 8, 0, none, [1]⟩ false) ∧
    (exOp.ToIValueArgument (some ⟨.kDLFloat, 32, 0, none, [1]⟩) 3
       = .error .assertFail) := by
  refine ⟨by rfl,
    (int64_bool_conversion_spec ⟨.kDLInt, 64, 0, none, [7]⟩).2.1 7 [] rfl rfl,
    ((int64_bool_conversion_spec ⟨.kDLInt, 64, 0, none, [7]⟩).2.2 exOp 3 false false none
      (by decide) rfl rfl rfl rfl).1 rfl rfl,
    ((int64_bool_conversion_spec ⟨.kDLUInt, 8, 0, none, [1]⟩).2.2 exOp 3 false false none
      (by decide) rfl rfl rfl rfl).2.1 rfl rfl,
    ((int64_bool_conversion_spec ⟨.kDLFloat, 32, 0, none, [1]⟩).2.2 exOp 3 false false none
      (by decide) rfl rfl rfl rfl).2.2 (by decide) (by decide)⟩

end OrtAten

namespace OrtAten

/-- **C5** counterexample: the claim says the insertion counter "strictly
increases, so no id is ever issued twice across the cache's lifetime" — but
`context_id_` is a 64-bit integer whose increment wraps, so the id issued by
call `2^64` equals the id issued by call `0`, and the value issued at call
`2^63` is already smaller than the one issued at call `2^63 - 1`. -/
theorem createId_reissues_after_wrap :
    CreateId 0 = CreateId (2 ^ 64) ∧ (0 : Nat) ≠ 2 ^ 64 ∧
    CreateId (2 ^ 63) < CreateId (2 ^ 63 - 1) := by
  refine ⟨?_, by norm_num, ?_⟩
  · unfold CreateId wrap64
    norm_num
  · unfold CreateId wrap64
    norm_num

/-- **C5** (amended): `AutogradContextCache::Insert` draws an id from a
counter that starts at 0 and increments by one per insertion with 64-bit
two's-complement wraparound, so ids are pairwise distinct among any fewer
than `2^64` insertions (and strictly increase while the counter stays below
`2^63`).  As long as the issued id is not already present in the map,
`Insert` stores the context under it and `Pop(id)` returns exactly that
context and erases it; if the counter has wrapped so far that the issued id
still maps to a live entry, `emplace` keeps the old entry and drops the new
context, and `Pop(id)` returns the earlier context.  `Pop` of an id that is
not present (never issued, or already popped — including a second backward
call with the same `context_id`) fails an internal assertion. -/
theorem autogradContextCache_spec (α : Type) :
    (∀ k l : Nat, k < 2 ^ 64 → l < 2 ^ 64 → k ≠ l → CreateId k ≠ CreateId l) ∧
    (∀ k l : Nat, k < l → l < 2 ^ 63 → CreateId k < CreateId l) ∧
    (∀ (c : AutogradContextCache α) (ctx : α),
        (c.Insert ctx).1 = CreateId c.createCount ∧
        ((∀ p ∈ c.autograd_contexts, p.1 ≠ CreateId c.createCount) →
          (c.Insert ctx).2.Pop (c.Insert ctx).1
            = .ok (ctx, ⟨c.createCount + 1, c.autograd_contexts⟩))) ∧
    (∀ (c : AutogradContextCache α) (ctx : α) (entry : Int × α),
        c.autograd_contexts.find? (·.1 == CreateId c.createCount) = some entry →
        (c.Insert ctx).2.autograd_contexts = c.autograd_contexts ∧
        (c.Insert ctx).2.Pop (c.Insert ctx).1
          = .ok (entry.2, ⟨c.createCount + 1,
              c.autograd_contexts.eraseP (·.1 == CreateId c.createCount)⟩)) ∧
    (∀ (c : AutogradContextCache α) (context_id : Int),
        (∀ p ∈ c.autograd_contexts, p.1 ≠ context_id) →
        c.Pop context_id = .error .assertFail) ∧
    (∀ (c : AutogradContextCache α) (ctx : α) (st : AutogradContextCache α),
        (∀ p ∈ c.autograd_contexts, p.1 ≠ CreateId c.createCount) →
        (c.Insert ctx).2.Pop (c.Insert ctx).1 = .ok (ctx, st) →
        st.Pop (c.Insert ctx).1 = .error .assertFail) := by
  have hpop_absent : ∀ (c : AutogradContextCache α) (context_id : Int),
      (∀ p ∈ c.autograd_contexts, p.1 ≠ context_id) →
      c.Pop context_id = .error .assertFail := by
    intro c context_id h
    have hfind : c.autograd_contexts.find? (·.1 == context_id) = none := by
      apply List.find?_eq_none.mpr
      intro p hp
      simpa using h p hp
    unfold AutogradContextCache.Pop
    rw [hfind]
  have hround : ∀ (c : AutogradContextCache α) (ctx : α),
      (∀ p ∈ c.autograd_contexts, p.1 ≠ CreateId c.createCount) →
      (c.Insert ctx).2.Pop (c.Insert ctx).1
        = .ok (ctx, ⟨c.createCount + 1, c.autograd_contexts⟩) := by
    intro c ctx hfresh
    have hfind : c.autograd_contexts.find? (·.1 == CreateId c.createCount) = none := by
      apply List.find?_eq_none.mpr
      intro p hp
      simpa using hfresh p hp
    unfold AutogradContextCache.Insert AutogradContextCache.Pop
    simp [hfind]
  refine ⟨?_, ?_, ?_, ?_, hpop_absent, ?_⟩
  · intro k l hk hl hne
    unfold CreateId wrap64
    rw [Nat.mod_eq_of_lt hk, Nat.mod_eq_of_lt hl]
    split_ifs <;> omega
  · intro k l hkl hl
    have hk64 : k < 2 ^ 64 := by omega
    have hl64 : l < 2 ^ 64 := by omega
    unfold CreateId wrap64
    rw [Nat.mod_eq_of_lt hk64, Nat.mod_eq_of_lt hl64]
    split_ifs <;> omega
  · intro c ctx
    exact ⟨rfl, hround c ctx⟩
  · intro c ctx entry hfind
    have hsome : (c.autograd_contexts.find? (·.1 == CreateId c.createCount)).isSome = true := by
      rw [hfind]; rfl
    constructor
    · show (if (c.autograd_contexts.find? (·.1 == CreateId c.createCount)).isSome = true
            then c.autograd_contexts
            else (CreateId c.createCount, ctx) :: c.autograd_contexts) = c.autograd_contexts
      rw [if_pos hsome]
    · unfold AutogradContextCache.Insert AutogradContextCache.Pop
      rw [if_pos hsome, hfind]
  · intro c ctx st hfresh hok
    have hst : st = ⟨c.createCount + 1, c.autograd_contexts⟩ := by
      have := (hround c ctx hfresh).symm.trans hok
      exact ((Prod.mk.injEq _ _ _ _ ▸ Except.ok.inj this).2).symm
    subst hst
    exact hpop_absent _ _ hfresh

/-- Witness for C5 (amended): fresh-id behaviour on the empty cache
(distinct and increasing ids, a successful Insert/Pop round trip of context
`42`, a failing Pop of the never-issued id `5`, a failing second Pop), and
the wraparound regime on a cache whose table already holds the issued id 0:
`emplace` keeps the stale context `99` and `Pop` returns it. -/
theorem autogradContextCache_spec_witness :
    (CreateId 0 ≠ CreateId 1) ∧ (CreateId 0 < CreateId 1) ∧
    ((AutogradContextCache.Insert ⟨0, []⟩ (42 : Nat)).2.Pop
        (AutogradContextCache.Insert ⟨0, []⟩ (42 : Nat)).1 = .ok (42, ⟨1, []⟩)) ∧
    ((AutogradContextCache.Insert ⟨0, [((0 : Int), (99 : Nat))]⟩ 42).2.autograd_contexts
        = [((0 : Int), (99 : Nat))]) ∧
    ((AutogradContextCache.Insert ⟨0, [((0 : Int), (99 : Nat))]⟩ 42).2.Pop
        (AutogradContextCache.Insert ⟨0, [((0 : Int), (99 : Nat))]⟩ 42).1
        = .ok (99, ⟨1, []⟩)) ∧
    (AutogradContextCache.Pop (α := Nat) ⟨0, []⟩ 5 = .error .assertFail) ∧
    (AutogradContextCache.Pop (α := Nat) ⟨1, []⟩
        (AutogradContextCache.Insert ⟨0, []⟩ (42 : Nat)).1 = .error .assertFail) :=
  ⟨(autogradContextCache_spec Nat).1 0 1 (by norm_num) (by norm_num) (by norm_num),
   (autogradContextCache_spec Nat).2.1 0 1 (by norm_num) (by norm_num),
   ((autogradContextCache_spec Nat).2.2.1 ⟨0, []⟩ 42).2 (by intro p hp; cases hp),
   ((autogradContextCache_spec Nat).2.2.2.1 ⟨0, [((0 : Int), (99 : Nat))]⟩ 42
      ((0 : Int), (99 : Nat)) rfl).1,
   ((autogradContextCache_spec Nat).2.2.2.1 ⟨0, [((0 : Int), (99 : Nat))]⟩ 42
      ((0 : Int), (99 : Nat)) rfl).2,
   (autogradContextCache_spec Nat).2.2.2.2.1 ⟨0, []⟩ 5 (by intro p hp; cases hp),
   (autogradContextCache_spec Nat).2.2.2.2.2 ⟨0, []⟩ 42 ⟨1, []⟩ (by intro p hp; cases hp)
     (((autogradContextCache_spec Nat).2.2.1 ⟨0, []⟩ 42).2 (by intro p hp; cases hp))⟩

end OrtAten

namespace OrtAten

theorem lookupOp_append_of_some (ops more : OpCache) (k : String × String)
    (v : ATenOperator) (h : lookupOp ops k = some v) :
    lookupOp (ops ++ more) k = some v := by
  induction ops with
  | nil => simp [lookupOp] at h
  | cons p rest ih =>
      cases hp : (p.1 == k) with
      | true =>
          simp only [lookupOp, List.cons_append, List.find?_cons, hp] at h ⊢
          exact h
      | false =>
          simp only [lookupOp, List.cons_append, List.find?_cons, hp] at h ⊢
          exact ih h

theorem lookupOp_append_self (ops : OpCache) (k : String × String) (e : ATenOperator)
    (h : lookupOp ops k = none) : lookupOp (ops ++ [(k, e)]) k = some e := by
  induction ops with
  | nil => simp [lookupOp, List.find?]
  | cons p rest ih =>
      cases hp : (p.1 == k) with
      | true => simp only [lookupOp, List.find?_cons, hp] at h; cases h
      | false =>
          simp only [lookupOp, List.cons_append, List.find?_cons, hp] at h ⊢
          exact ih h

/-- **C6**: for every `(op_name, overload_name)` pair,
`ATenOperatorCache::GetOperator` resolves the operator from the torch
registry and derives its argument metadata (element kinds with optional and
list wrappers unwrapped, is-list and is-optional flags, default values,
return count) only on the first call; every subsequent call with the same
pair returns the identical cached `ATenOperator` entry, and the cache grows
monotonically, never evicting or overwriting an entry. -/
theorem getOperator_cache_spec (reg : Registry) (ops : OpCache)
    (op_name overload_name : String) :
    (∀ entry, lookupOp ops (op_name, overload_name) = some entry →
        GetOperator reg ops op_name overload_name = .ok (entry, ops, 0)) ∧
    (∀ entry ops' cnt, lookupOp ops (op_name, overload_name) = none →
        GetOperator reg ops op_name overload_name = .ok (entry, ops', cnt) →
        cnt = 1 ∧
        (∃ op, findOperatorFor reg (op_name, overload_name) = some op ∧
               buildATenOperator op = .ok entry) ∧
        ops' = ops ++ [((op_name, overload_name), entry)] ∧
        GetOperator reg ops' op_name overload_name = .ok (entry, ops', 0)) ∧
    (∀ entry ops' cnt, GetOperator reg ops op_name overload_name = .ok (entry, ops', cnt) →
        ∀ k v, lookupOp ops k = some v → lookupOp ops' k = some v) := by
  refine ⟨?_, ?_, ?_⟩
  · intro entry hhit
    unfold GetOperator
    rw [hhit]
  · intro entry ops' cnt hmiss h
    unfold GetOperator at h
    simp only [hmiss] at h
    cases hfo : findOperatorFor reg (op_name, overload_name) with
    | none => simp only [hfo] at h; cases h
    | some op =>
        simp only [hfo] at h
        cases hb : buildATenOperator op with
        | error e => simp only [hb] at h; cases h
        | ok a =>
            simp only [hb] at h
            cases h
            refine ⟨rfl, ⟨op, rfl, hb⟩, rfl, ?_⟩
            unfold GetOperator
            rw [lookupOp_append_self ops _ entry hmiss]
  · intro entry ops' cnt h k v hk
    unfold GetOperator at h
    cases hl : lookupOp ops (op_name, overload_name) with
    | some a => simp only [hl] at h; cases h; exact hk
    | none =>
        simp only [hl] at h
        cases hfo : findOperatorFor reg (op_name, overload_name) with
        | none => simp only [hfo] at h; cases h
        | some op =>
            simp only [hfo] at h
            cases hb : buildATenOperator op with
            | error e => simp only [hb] at h; cases h
            | ok a =>
                simp only [hb] at h
                cases h
                exact lookupOp_append_of_some ops _ k v hk

/-- Witness for C6: resolving `aten::relu` in the one-entry fixture registry
from the cache it itself produced returns the identical derived entry with
no further registry resolution and an unchanged cache. -/
theorem getOperator_cache_spec_witness :
    GetOperator exRegistry
      [(("aten::relu", ""),
        { op := 7, argument_size := 1, elem_kinds := [.TensorType],
          is_list_arguments := [false], is_optional_arguments := [false],
          default_values := [none], return_size := 1 })]
      "aten::relu" ""
      = .ok ({ op := 7, argument_size := 1, elem_kinds := [.TensorType],
               is_list_arguments := [false], is_optional_arguments := [false],
               default_values := [none], return_size := 1 },
             [(("aten::relu", ""),
               { op := 7, argument_size := 1, elem_kinds := [.TensorType],
                 is_list_arguments := [false], is_optional_arguments := [false],
                 default_values := [none], return_size := 1 })], 0) :=
  ((getOperator_cache_spec exRegistry [] "aten::relu" "").2.1
      { op := 7, argument_size := 1, elem_kinds := [.TensorType],
        is_list_arguments := [false], is_optional_arguments := [false],
        default_values := [none], return_size := 1 }
      [(("aten::relu", ""),
        { op := 7, argument_size := 1, elem_kinds := [.TensorType],
          is_list_arguments := [false], is_optional_arguments := [false],
          default_values := [none], return_size := 1 })]
      1 rfl (by rfl)).2.2.2

end OrtAten

namespace OrtAten

theorem ensureContiguous_contig (t : Tensor) : (ensureContiguous t).contig = true := by
  unfold ensureContiguous
  split
  · assumption
  · rfl

theorem exportRet_ok (a : IValue) (b : Tensor) (h : exportRet a = .ok b) :
    ∃ t0, a = IValue.tensor t0 ∧ b = ensureContiguous t0 := by
  cases a <;> simp [exportRet] at h
  exact ⟨_, rfl, h.symm⟩

theorem executeInternal_ok (run : List IValue → List IValue) (arguments : List IValue)
    (return_size : Nat) (fo : IValue) (result : List Tensor)
    (h : ExecuteInternal run arguments return_size = .ok (fo, result)) :
    return_size ≤ (run arguments).length ∧
    result.length = return_size ∧
    (∀ t ∈ result, t.contig = true) ∧
    (∀ (j : Nat) (t : Tensor), result[j]? = some t → ∃ t0,
        ((run arguments).drop ((run arguments).length - return_size))[j]?
          = some (IValue.tensor t0) ∧ t = ensureContiguous t0) := by
  unfold ExecuteInternal at h
  by_cases hle : return_size ≤ (run arguments).length
  · rw [if_pos hle] at h
    cases hm : mapE exportRet ((run arguments).drop ((run arguments).length - return_size)) with
    | error e => rw [hm] at h; cases h
    | ok res =>
        rw [hm] at h
        cases h
        have hlen : result.length = return_size := by
          have := mapE_ok_length _ _ _ hm
          rw [List.length_drop] at this
          omega
        refine ⟨hle, hlen, ?_, ?_⟩
        · intro t ht
          obtain ⟨a, _, ha⟩ := mapE_ok_mem _ _ _ hm t ht
          obtain ⟨t0, rfl, rfl⟩ := exportRet_ok a t ha
          exact ensureContiguous_contig t0
        · intro j t hjt
          have hj : j < result.length := (List.getElem?_eq_some.mp hjt).1
          have hj' : j < ((run arguments).drop ((run arguments).length - return_size)).length := by
            have := mapE_ok_length _ _ _ hm
            omega
          obtain ⟨b, hfb, hrb⟩ := mapE_ok_get _ _ _ hm j _
            (List.getElem?_eq_getElem hj')
          obtain ⟨t0, ha0, hb0⟩ := exportRet_ok _ b hfb
          rw [hjt] at hrb
          cases hrb
          exact ⟨t0, by rw [List.getElem?_eq_getElem hj', ha0], hb0⟩
  · rw [if_neg hle] at h
    cases h

end OrtAten

namespace OrtAten

/-- **C1**: for every call to
`ExecuteATenOperator(op_name, overload_name, dlpacks, requires_grad,
p_context_id)` in which `dlpacks` has exactly as many entries as the resolved
operator schema has arguments, the operator registered under
`(op_name, overload_name)` is executed exactly once on the converted
arguments (the instrumentation log is exactly one invocation, on the
converted argument stack) and the returned vector contains exactly one
DLManagedTensor per declared return of the schema, in schema order, each
exported from a contiguous tensor; if the argument count differs from the
schema's argument count, an internal assertion fails before execution (empty
invocation log). -/
theorem executeATenOperator_spec {n m : Nat} (aten_op : ATenOperator)
    (run : List IValue → List IValue) (G : AGraph n m) (root : Fin n) (fuel : Nat)
    (cache : AutogradContextCache (AutogradContext n m))
    (dlpacks : List (Option DLTensor)) (wantCtx : Bool) :
    (∀ out log,
      ExecuteATenOperator aten_op run G root fuel cache dlpacks wantCtx = (.ok out, log) →
      dlpacks.length = aten_op.argument_size ∧
      ∃ arguments,
        mapE (fun p => aten_op.ToIValueArgument p.2 p.1) dlpacks.enum = .ok arguments ∧
        log = [arguments] ∧
        out.1.length = aten_op.return_size ∧
        (∀ t ∈ out.1, t.contig = true) ∧
        (∀ (j : Nat) (t : Tensor), out.1[j]? = some t → ∃ t0,
           ((run arguments).drop ((run arguments).length - aten_op.return_size))[j]?
             = some (IValue.tensor t0) ∧ t = ensureContiguous t0)) ∧
    (dlpacks.length ≠ aten_op.argument_size →
      ExecuteATenOperator aten_op run G root fuel cache dlpacks wantCtx
        = (.error .assertFail, [])) := by
  constructor
  · intro out log h
    unfold ExecuteATenOperator at h
    by_cases hlen : dlpacks.length = aten_op.argument_size
    · rw [if_pos hlen] at h
      refine ⟨hlen, ?_⟩
      cases hconv : mapE (fun p => aten_op.ToIValueArgument p.2 p.1) dlpacks.enum with
      | error e => simp only [hconv] at h; cases h
      | ok arguments =>
          simp only [hconv] at h
          refine ⟨arguments, rfl, ?_⟩
          by_cases hm : m ≤ arguments.length
          · rw [if_pos hm] at h
            cases hreq : mapE requireTensor (arguments.take m) with
            | error e => simp only [hreq] at h; cases h
            | ok ts =>
                simp only [hreq] at h
                by_cases hwm : (wantCtx || m == 0) = true
                · rw [if_pos hwm] at h
                  cases wantCtx with
                  | true =>
                      rw [if_pos rfl] at h
                      cases hei : ExecuteInternal run arguments aten_op.return_size with
                      | error e =>
                          simp only [hei] at h; cases h
                      | ok pr =>
                          obtain ⟨fo, result⟩ := pr
                          simp only [hei] at h
                          obtain ⟨hle, hrl, hcontig, hjth⟩ :=
                            executeInternal_ok run arguments aten_op.return_size fo result hei
                          cases fo with
                          | tensor t0 =>
                              cases hfw : forwardRun G fuel [root] (fun _ => Option.none) with
                              | none =>
                                  simp only [hfw] at h; cases h
                              | some found =>
                                  simp only [hfw] at h
                                  cases hff : mapE (requireFound found) (List.finRange m) with
                                  | error e =>
                                      simp only [hff] at h; cases h
                                  | ok input_grad_fns =>
                                      simp only [hff] at h
                                      cases h
                                      exact ⟨rfl, hrl, hcontig, hjth⟩
                          | none =>
                              simp only [] at h; cases h
                          | int v =>
                              simp only [] at h; cases h
                          | float v =>
                              simp only [] at h; cases h
                          | bool b =>
                              simp only [] at h; cases h
                          | intList vs =>
                              simp only [] at h; cases h
                          | floatList vs =>
                              simp only [] at h; cases h
                          | boolList bs =>
                              simp only [] at h; cases h
                  | false =>
                      rw [if_neg (by simp)] at h
                      cases hei : ExecuteInternal run arguments aten_op.return_size with
                      | error e =>
                          simp only [hei] at h; cases h
                      | ok pr =>
                          obtain ⟨fo, result⟩ := pr
                          simp only [hei] at h
                          obtain ⟨hle, hrl, hcontig, hjth⟩ :=
                            executeInternal_ok run arguments aten_op.return_size fo result hei
                          cases h
                          exact ⟨rfl, hrl, hcontig, hjth⟩
                · rw [if_neg hwm] at h
                  cases h
          · rw [if_neg hm] at h
            cases h
    · rw [if_neg hlen] at h
      cases h
  · intro hlen
    unfold ExecuteATenOperator
    rw [if_neg hlen]

end OrtAten

namespace OrtAten

/-- Witness for C1: a concrete one-argument call on the identity operation
(the execution log has exactly the one converted argument stack, the result
is the single contiguous exported tensor), and a call with the wrong
argument count that fails the assertion with an empty log. -/
theorem executeATenOperator_spec_witness :
    (([some exDL] : List (Option DLTensor)).length = exOp1.argument_size ∧
     ∃ arguments,
        mapE (fun p => exOp1.ToIValueArgument p.2 p.1)
            ([some exDL] : List (Option DLTensor)).enum = .ok arguments ∧
        [[IValue.tensor ⟨5, true⟩]] = [arguments] ∧
        ([⟨5, true⟩] : List Tensor).length = exOp1.return_size ∧
        (∀ t ∈ ([⟨5, true⟩] : List Tensor), t.contig = true) ∧
        (∀ (j : Nat) (t : Tensor), ([⟨5, true⟩] : List Tensor)[j]? = some t → ∃ t0,
           ((exRun arguments).drop ((exRun arguments).length - exOp1.return_size))[j]?
             = some (IValue.tensor t0) ∧ t = ensureContiguous t0)) ∧
    ExecuteATenOperator exOp1 exRun exGraph 0 3 ⟨0, []⟩ [] true
      = (.error .assertFail, []) :=
  ⟨(executeATenOperator_spec exOp1 exRun exGraph 0 3 ⟨0, []⟩ [some exDL] true).1
      ([⟨5, true⟩], some 0, ⟨1, [(0, ⟨0, [1]⟩)]⟩) [[IValue.tensor ⟨5, true⟩]] rfl,
   (executeATenOperator_spec exOp1 exRun exGraph 0 3 ⟨0, []⟩ [] true).2 (by decide)⟩

end OrtAten

namespace OrtAten

theorem assignFound_preserve (G : AGraph n m) (w : Fin n) (found : Fin m → Option (Fin n))
    (i : Fin m) (v : Fin n) (h : found i = some v) : assignFound G w found i = some v := by
  cases hk : G.keyOf w with
  | none => simp only [assignFound, hk]; exact h
  | some j =>
      simp only [assignFound, hk]
      by_cases hj : (found j).isNone
      · rw [if_pos hj]
        rcases eq_or_ne i j with rfl | hij
        · rw [h] at hj; cases hj
        · rw [Function.update_noteq hij]
          exact h
      · rw [if_neg hj]
        exact h

theorem assignFound_fills (G : AGraph n m) (w : Fin n) (found : Fin m → Option (Fin n))
    (i : Fin m) (hk : G.keyOf w = some i) : (assignFound G w found i).isSome := by
  simp only [assignFound, hk]
  by_cases hj : (found i).isNone
  · rw [if_pos hj, Function.update_same]
    rfl
  · rw [if_neg hj]
    cases hfi : found i with
    | none => rw [hfi] at hj; exact absurd rfl hj
    | some u => rfl

theorem assignFound_sound (G : AGraph n m) (w : Fin n) (found : Fin m → Option (Fin n))
    (i : Fin m) (v : Fin n) (h : assignFound G w found i = some v) :
    found i = some v ∨ (v = w ∧ G.keyOf w = some i) := by
  cases hk : G.keyOf w with
  | none => simp only [assignFound, hk] at h; exact Or.inl h
  | some j =>
      simp only [assignFound, hk] at h
      by_cases hj : (found j).isNone
      · rw [if_pos hj] at h
        rcases eq_or_ne i j with rfl | hij
        · rw [Function.update_same] at h
          exact Or.inr ⟨(Option.some.inj h).symm, rfl⟩
        · rw [Function.update_noteq hij] at h
          exact Or.inl h
      · rw [if_neg hj] at h
        exact Or.inl h

theorem processEdges_preserve (G : AGraph n m) :
    ∀ (l : List (Fin n)) (found : Fin m → Option (Fin n)) (i : Fin m) (v : Fin n),
      found i = some v → (processEdges G l found).1 i = some v := by
  intro l
  induction l with
  | nil => intro found i v h; exact h
  | cons w rest ih =>
      intro found i v h
      unfold processEdges
      cases hacc : G.isAccum w with
      | true =>
          simp only [hacc, if_true]
          exact ih _ i v (assignFound_preserve G w found i v h)
      | false =>
          simp only [hacc, Bool.false_eq_true, if_false]
          exact ih found i v h

theorem processEdges_mono (G : AGraph n m) (l : List (Fin n))
    (found : Fin m → Option (Fin n)) (i : Fin m) (h : (found i).isSome) :
    ((processEdges G l found).1 i).isSome := by
  cases hfi : found i with
  | none => rw [hfi] at h; cases h
  | some v => rw [processEdges_preserve G l found i v hfi]; rfl

theorem processEdges_fills (G : AGraph n m) :
    ∀ (l : List (Fin n)) (found : Fin m → Option (Fin n)) (v : Fin n) (i : Fin m),
      v ∈ l → G.isAccum v = true → G.keyOf v = some i →
      ((processEdges G l found).1 i).isSome := by
  intro l
  induction l with
  | nil => intro found v i hv; cases hv
  | cons w rest ih =>
      intro found v i hv hacc hk
      unfold processEdges
      rcases List.mem_cons.mp hv with rfl | hv'
      · simp only [hacc, if_true]
        exact processEdges_mono G rest _ i (assignFound_fills G v found i hk)
      · cases haccw : G.isAccum w with
        | true =>
            simp only [haccw, if_true]
            exact ih _ v i hv' hacc hk
        | false =>
            simp only [haccw, Bool.false_eq_true, if_false]
            exact ih found v i hv' hacc hk

theorem processEdges_sound (G : AGraph n m) :
    ∀ (l : List (Fin n)) (found : Fin m → Option (Fin n)) (i : Fin m) (v : Fin n),
      (processEdges G l found).1 i = some v →
      found i = some v ∨ (v ∈ l ∧ G.isAccum v = true ∧ G.keyOf v = some i) := by
  intro l
  induction l with
  | nil => intro found i v h; exact Or.inl h
  | cons w rest ih =>
      intro found i v h
      unfold processEdges at h
      cases hacc : G.isAccum w with
      | true =>
          simp only [hacc, if_true] at h
          rcases ih _ i v h with h' | ⟨hv, h1, h2⟩
          · rcases assignFound_sound G w found i v h' with h'' | ⟨rfl, hk⟩
            · exact Or.inl h''
            · exact Or.inr ⟨List.mem_cons_self _ _, hacc, hk⟩
          · exact Or.inr ⟨List.mem_cons_of_mem _ hv, h1, h2⟩
      | false =>
          simp only [hacc, Bool.false_eq_true, if_false] at h
          rcases ih found i v h with h' | ⟨hv, h1, h2⟩
          · exact Or.inl h'
          · exact Or.inr ⟨List.mem_cons_of_mem _ hv, h1, h2⟩

theorem processEdges_pushes (G : AGraph n m) :
    ∀ (l : List (Fin n)) (found : Fin m → Option (Fin n)),
      (processEdges G l found).2 = l.filter (fun v => !G.isAccum v) := by
  intro l
  induction l with
  | nil => intro found; rfl
  | cons w rest ih =>
      intro found
      unfold processEdges
      cases hacc : G.isAccum w with
      | true => simp [List.filter_cons, hacc, ih]
      | false => simp [List.filter_cons, hacc, ih]

end OrtAten

namespace OrtAten

theorem expanded_nil (G : AGraph n m) (u : Fin n) (h : Expanded G [] u) : False := by
  induction h with
  | base hu => exact List.not_mem_nil _ hu
  | step _ _ _ ih => exact ih

theorem expanded_mono (G : AGraph n m) (q q' : List (Fin n)) (hsub : ∀ x ∈ q, x ∈ q')
    (u : Fin n) (h : Expanded G q u) : Expanded G q' u := by
  induction h with
  | base hu => exact Expanded.base (hsub _ hu)
  | step _ hv hacc ih => exact Expanded.step ih hv hacc

theorem expanded_cons (G : AGraph n m) (u : Fin n) (rest : List (Fin n)) (x : Fin n)
    (h : Expanded G (u :: rest) x) :
    Expanded G (rest ++ (G.succ u).filter (fun v => !G.isAccum v)) x ∨ x = u := by
  induction h with
  | base hx =>
      rcases List.mem_cons.mp hx with rfl | hx'
      · exact Or.inr rfl
      · exact Or.inl (Expanded.base (List.mem_append_left _ hx'))
  | step hy hv hacc ih =>
      rcases ih with hy' | rfl
      · exact Or.inl (Expanded.step hy' hv hacc)
      · refine Or.inl (Expanded.base (List.mem_append_right _ ?_))
        exact List.mem_filter.mpr ⟨hv, by rw [hacc]; rfl⟩

theorem forwardRun_preserve (G : AGraph n m) :
    ∀ (fuel : Nat) (q : List (Fin n)) (found final : Fin m → Option (Fin n)),
      forwardRun G fuel q found = some final →
      ∀ i v, found i = some v → final i = some v := by
  intro fuel
  induction fuel with
  | zero =>
      intro q found final h i v hfi
      cases q with
      | nil => cases h; exact hfi
      | cons u rest => cases h
  | succ fuel ih =>
      intro q found final h i v hfi
      cases q with
      | nil => cases h; exact hfi
      | cons u rest =>
          unfold forwardRun at h
          exact ih _ _ _ h i v (processEdges_preserve G _ found i v hfi)

theorem forwardRun_sound (G : AGraph n m) :
    ∀ (fuel : Nat) (q : List (Fin n)) (found final : Fin m → Option (Fin n)),
      forwardRun G fuel q found = some final →
      ∀ i v, final i = some v →
      found i = some v ∨ (G.isAccum v = true ∧ G.keyOf v = some i) := by
  intro fuel
  induction fuel with
  | zero =>
      intro q found final h i v hfin
      cases q with
      | nil => cases h; exact Or.inl hfin
      | cons u rest => cases h
  | succ fuel ih =>
      intro q found final h i v hfin
      cases q with
      | nil => cases h; exact Or.inl hfin
      | cons u rest =>
          unfold forwardRun at h
          rcases ih _ _ _ h i v hfin with h' | hacc
          · rcases processEdges_sound G _ found i v h' with h'' | ⟨_, h1, h2⟩
            · exact Or.inl h''
            · exact Or.inr ⟨h1, h2⟩
          · exact Or.inr hacc

theorem forwardRun_complete (G : AGraph n m) :
    ∀ (fuel : Nat) (q : List (Fin n)) (found final : Fin m → Option (Fin n)),
      forwardRun G fuel q found = some final →
      ∀ i, ((∃ u v, Expanded G q u ∧ v ∈ G.succ u ∧ G.isAccum v = true ∧ G.keyOf v = some i)
            ∨ (found i).isSome) →
      (final i).isSome := by
  intro fuel
  induction fuel with
  | zero =>
      intro q found final h i hinv
      cases q with
      | nil =>
          cases h
          rcases hinv with ⟨u, v, hu, _⟩ | hs
          · exact absurd hu (fun hu => expanded_nil G u hu)
          · exact hs
      | cons u rest => cases h
  | succ fuel ih =>
      intro q found final h i hinv
      cases q with
      | nil =>
          cases h
          rcases hinv with ⟨u, v, hu, _⟩ | hs
          · exact absurd hu (fun hu => expanded_nil G u hu)
          · exact hs
      | cons u rest =>
          unfold forwardRun at h
          apply ih _ _ _ h i
          rcases hinv with ⟨u0, v, hu0, hv, hacc, hk⟩ | hs
          · rcases expanded_cons G u rest u0 hu0 with hu0' | rfl
            · left
              refine ⟨u0, v, ?_, hv, hacc, hk⟩
              rw [processEdges_pushes]
              exact hu0'
            · right
              exact processEdges_fills G (G.succ u0) found v i hv hacc hk
          · right
            exact processEdges_mono G _ found i hs

/-- **C4**: when `ExecuteATenOperator` is called with a non-null
`p_context_id`, the breadth-first walk from the output tensor's `grad_fn`
over `next_edges` assigns an AccumulateGrad node to `input_grad_fns[i]` for
every index `i` of `requires_grad`, assigning only the first accumulator
found for an index and never overwriting it (an already-filled slot is
preserved by the rest of the walk), and the final assertion that every
`input_grad_fns` entry is non-null passes; precondition: every
gradient-requiring input's accumulator is reachable from the output's
`grad_fn` and is keyed in `grad_ptr_to_indices` by the address of its grad
tensor. -/
theorem forward_walk_assigns {n m : Nat} (G : AGraph n m) (root : Fin n) (fuel : Nat)
    (final : Fin m → Option (Fin n))
    (hrun : forwardRun G fuel [root] (fun _ => none) = some final)
    (hreach : ∀ i : Fin m, ∃ u v, Expanded G [root] u ∧ v ∈ G.succ u ∧
        G.isAccum v = true ∧ G.keyOf v = some i) :
    (∀ i, (final i).isSome) ∧
    (∀ i v, final i = some v → G.isAccum v = true ∧ G.keyOf v = some i) ∧
    (∀ (fuel2 : Nat) (q : List (Fin n)) (found found2 : Fin m → Option (Fin n)),
        forwardRun G fuel2 q found = some found2 →
        ∀ i v, found i = some v → found2 i = some v) := by
  refine ⟨?_, ?_, fun fuel2 q found found2 h i v hv =>
    forwardRun_preserve G fuel2 q found found2 h i v hv⟩
  · intro i
    exact forwardRun_complete G fuel [root] _ final hrun i (Or.inl (hreach i))
  · intro i v hfin
    rcases forwardRun_sound G fuel [root] _ final hrun i v hfin with h' | h'
    · cases h'
    · exact h'

/-- Witness for C4 on the two-node fixture tape: the walk fills the only
slot with the accumulator node 1 and the filled slot satisfies the soundness
conjunct. -/
theorem forward_walk_assigns_witness :
    (∀ i : Fin 1,
      ((Function.update (fun _ => (none : Option (Fin 2))) 0 (some 1)) i).isSome) ∧
    (∀ (i : Fin 1) (v : Fin 2),
      (Function.update (fun _ => (none : Option (Fin 2))) 0 (some 1)) i = some v →
      exGraph.isAccum v = true ∧ exGraph.keyOf v = some i) := by
  have h := forward_walk_assigns exGraph 0 2
    (Function.update (fun _ => (none : Option (Fin 2))) 0 (some 1)) rfl
    (fun i => ⟨0, 1, Expanded.base (by simp), by decide, by decide, by
      have hi : i = 0 := Subsingleton.elim i 0
      subst hi
      decide⟩)
  exact ⟨h.1, h.2.1⟩

end OrtAten

namespace OrtAten

theorem ensureContiguous_eq (t : Tensor) : ensureContiguous t = ⟨t.val, true⟩ := by
  unfold ensureContiguous
  split
  · cases t with | mk v c => simp_all
  · rfl

theorem exportGrad_ok (grads : Fin n → Option Tensor) (a : Fin n) (b : Tensor)
    (h : exportGrad grads a = .ok b) : ∃ t, grads a = some t ∧ b = ensureContiguous t := by
  cases hg : grads a with
  | none => simp only [exportGrad, hg] at h; cases h
  | some t =>
      simp only [exportGrad, hg, Except.ok.injEq] at h
      exact ⟨t, rfl, h.symm⟩

theorem deliveredTo_append (log : List (Fin n × Tensor)) (v : Fin n) (g : Tensor) (a : Fin n) :
    deliveredTo (log ++ [(v, g)]) a
      = deliveredTo log a ++ (if v = a then [g] else []) := by
  unfold deliveredTo
  rw [List.filter_append, List.map_append]
  congr 1
  by_cases hv : v = a
  · subst hv
    simp
  · simp [hv]

theorem initial_backState_good : GoodState (⟨fun _ => none, [], []⟩ : BackState n) := by
  intro a
  constructor
  · simp [deliveredTo]
  · simp [deliveredTo]

theorem goodState_add (st : BackState n) (v : Fin n) (g : Tensor) (t : Tensor)
    (hg : GoodState st) (hseen : v ∈ st.seen) (hgr : st.grads v = some t) :
    GoodState ⟨Function.update st.grads v (some (addTensor t g)), st.seen,
               st.log ++ [(v, g)]⟩ := by
  intro a
  obtain ⟨h1, h2⟩ := hg a
  by_cases hav : a = v
  · subst hav
    have hdv : deliveredTo st.log a ≠ [] := h2.mp hseen
    obtain ⟨h1a, _⟩ := hg a
    rw [hgr] at h1a
    rw [if_neg hdv] at h1a
    have hval : t.val = ((deliveredTo st.log a).map Tensor.val).sum := by
      simpa using h1a
    constructor
    · show (Function.update st.grads a (some (addTensor t g)) a).map Tensor.val = _
      rw [Function.update_same, deliveredTo_append, if_pos rfl]
      rw [if_neg (by simp [hdv])]
      simp [addTensor, hval]
    · show a ∈ st.seen ↔ _
      rw [deliveredTo_append, if_pos rfl]
      constructor
      · intro _; simp
      · intro _; exact hseen
  · have hva : ¬ v = a := fun hva => hav hva.symm
    constructor
    · show (Function.update st.grads v (some (addTensor t g)) a).map Tensor.val = _
      rw [Function.update_noteq hav, deliveredTo_append, if_neg hva, List.append_nil]
      exact h1
    · show a ∈ st.seen ↔ _
      rw [deliveredTo_append, if_neg hva, List.append_nil]
      exact h2

theorem goodState_assign (st : BackState n) (v : Fin n) (g : Tensor)
    (hg : GoodState st) (hseen : v ∉ st.seen) :
    GoodState ⟨Function.update st.grads v (some g), v :: st.seen, st.log ++ [(v, g)]⟩ := by
  intro a
  obtain ⟨h1, h2⟩ := hg a
  by_cases hav : a = v
  · subst hav
    have hdv : deliveredTo st.log a = [] := by
      by_contra hne
      exact hseen (h2.mpr hne)
    constructor
    · show (Function.update st.grads a (some g) a).map Tensor.val = _
      rw [Function.update_same, deliveredTo_append, if_pos rfl, hdv]
      simp
    · show a ∈ a :: st.seen ↔ _
      rw [deliveredTo_append, if_pos rfl, hdv]
      simp
  · have hva : ¬ v = a := fun hva => hav hva.symm
    constructor
    · show (Function.update st.grads v (some g) a).map Tensor.val = _
      rw [Function.update_noteq hav, deliveredTo_append, if_neg hva, List.append_nil]
      exact h1
    · show a ∈ v :: st.seen ↔ _
      rw [deliveredTo_append, if_neg hva, List.append_nil]
      rw [List.mem_cons]
      constructor
      · intro hm
        rcases hm with rfl | hm
        · exact absurd rfl hav
        · exact h2.mp hm
      · intro hm
        exact Or.inr (h2.mpr hm)

theorem deliver_good (G : AGraph n m) :
    ∀ (l : List (Fin n × Tensor)) (st st' : BackState n) (pushes : List (Fin n × Tensor)),
      deliver G l st = .ok (st', pushes) → GoodState st → GoodState st' := by
  intro l
  induction l with
  | nil => intro st st' pushes h hg; cases h; exact hg
  | cons p rest ih =>
      obtain ⟨v, g⟩ := p
      intro st st' pushes h hg
      unfold deliver at h
      cases hacc : G.isAccum v with
      | true =>
          rw [hacc] at h
          simp only [if_true] at h
          by_cases hseen : v ∈ st.seen
          · rw [if_pos hseen] at h
            cases hgr : st.grads v with
            | none => simp only [hgr] at h; cases h
            | some t =>
                simp only [hgr] at h
                exact ih _ st' pushes h (goodState_add st v g t hg hseen hgr)
          · rw [if_neg hseen] at h
            exact ih _ st' pushes h (goodState_assign st v g hg hseen)
      | false =>
          rw [hacc] at h
          simp only [Bool.false_eq_true, if_false] at h
          cases hd : deliver G rest st with
          | error e => rw [hd] at h; cases h
          | ok r =>
              rw [hd] at h
              cases h
              exact ih st r.1 r.2 (by rw [hd]) hg

theorem backRun_good (G : AGraph n m) (apply : Fin n → Tensor → List Tensor) :
    ∀ (fuel : Nat) (q : List (Fin n × Tensor)) (st st' : BackState n),
      backRun G apply fuel q st = .ok st' → GoodState st → GoodState st' := by
  intro fuel
  induction fuel with
  | zero =>
      intro q st st' h hg
      cases q with
      | nil => cases h; exact hg
      | cons p rest => cases h
  | succ fuel ih =>
      intro q st st' h hg
      cases q with
      | nil => cases h; exact hg
      | cons p rest =>
          obtain ⟨u, gin⟩ := p
          unfold backRun at h
          by_cases hlen : (apply u gin).length = (G.succ u).length
          · rw [if_pos hlen] at h
            cases hd : deliver G ((G.succ u).zip (apply u gin)) st with
            | error e => rw [hd] at h; cases h
            | ok r =>
                rw [hd] at h
                exact ih _ r.1 st' h (deliver_good G _ st r.1 r.2 (by rw [hd]) hg)
          · rw [if_neg hlen] at h
            cases h

end OrtAten

namespace OrtAten

/-- **C2**: in `ExecuteATenOpBackward`, for each AccumulateGrad node reached
by the gradient walk, the first gradient delivered to it is assigned to the
variable's grad and every later gradient delivered to the same node is added
to it, so after the walk each gradient-requiring input's grad equals the sum
of all gradients that flowed along edges into its accumulator (the delivery
log `log` records exactly those gradients); the returned vector holds
exactly one DLManagedTensor (exported from a contiguous tensor) per saved
input accumulator, in input-index order. -/
theorem executeATenOpBackward_spec {n m : Nat} (G : AGraph n m)
    (apply : Fin n → Tensor → List Tensor)
    (cache : AutogradContextCache (AutogradContext n m)) (fuel : Nat)
    (dlpack : DLTensor) (context_id : Int)
    (autograd_context : AutogradContext n m)
    (cache2 : AutogradContextCache (AutogradContext n m))
    (hpop : cache.Pop context_id = .ok (autograd_context, cache2))
    (result : List Tensor) (cache' : AutogradContextCache (AutogradContext n m))
    (log : List (Fin n × Tensor))
    (h : ExecuteATenOpBackward G apply cache fuel dlpack context_id
           = .ok (result, cache', log)) :
    result.length = autograd_context.input_grad_fns.length ∧
    ∀ (i : Nat) (a : Fin n), autograd_context.input_grad_fns[i]? = some a →
      deliveredTo log a ≠ [] ∧
      result[i]? = some ⟨((deliveredTo log a).map Tensor.val).sum, true⟩ := by
  unfold ExecuteATenOpBackward at h
  simp only [hpop] at h
  cases hbr : backRun G apply fuel
      [(autograd_context.output_grad_fn, fromDLPack dlpack)]
      ⟨fun _ => none, [], []⟩ with
  | error e => simp only [hbr] at h; cases h
  | ok st =>
      simp only [hbr] at h
      cases hex : mapE (exportGrad st.grads) autograd_context.input_grad_fns with
      | error e => simp only [hex] at h; cases h
      | ok res =>
          simp only [hex, Except.ok.injEq] at h
          obtain ⟨rfl, rfl, rfl⟩ := h
          have hgood : GoodState st :=
            backRun_good G apply fuel _ _ st hbr initial_backState_good
          constructor
          · exact mapE_ok_length _ _ _ hex
          · intro i a hia
            obtain ⟨b, hfb, hrb⟩ := mapE_ok_get _ _ _ hex i a hia
            obtain ⟨t, hgr, rfl⟩ := exportGrad_ok st.grads a b hfb
            obtain ⟨h1, _⟩ := hgood a
            rw [hgr] at h1
            by_cases hdv : deliveredTo st.log a = []
            · rw [if_pos hdv] at h1
              cases h1
            · rw [if_neg hdv] at h1
              have hval : t.val = ((deliveredTo st.log a).map Tensor.val).sum := by
                simpa using h1
              refine ⟨hdv, ?_⟩
              rw [hrb, ensureContiguous_eq, hval]

/-- Witness for C2: a concrete backward run on the two-node tape; the single
gradient `5` delivered to accumulator 1 is assigned and exported
contiguously, in input order. -/
theorem executeATenOpBackward_spec_witness :
    ([⟨5, true⟩] : List Tensor).length = ([1] : List (Fin 2)).length ∧
    ∀ (i : Nat) (a : Fin 2), ([(1 : Fin 2)] : List (Fin 2))[i]? = some a →
      deliveredTo [((1 : Fin 2), (⟨5, true⟩ : Tensor))] a ≠ [] ∧
      ([⟨5, true⟩] : List Tensor)[i]?
        = some ⟨((deliveredTo [((1 : Fin 2), (⟨5, true⟩ : Tensor))] a).map Tensor.val).sum,
                true⟩ :=
  executeATenOpBackward_spec exGraph exApply ⟨1, [(0, ⟨0, [1]⟩)]⟩ 3 exDL 0
    ⟨0, [1]⟩ ⟨1, []⟩ rfl [⟨5, true⟩] ⟨1, []⟩ [((1 : Fin 2), (⟨5, true⟩ : Tensor))] rfl

end OrtAten

namespace OrtAten

theorem weightAux_pos (G : AGraph n m) : ∀ (b : Nat) (u : Fin n), 1 ≤ weightAux G b u := by
  intro b u
  cases b with
  | zero => exact le_refl 1
  | succ b0 => exact Nat.le_add_right 1 _

theorem weightAux_stable (G : AGraph n m) (rank : Fin n → Nat)
    (hrank : ∀ u, ∀ v ∈ G.succ u, rank v < rank u) :
    ∀ (r : Nat) (u : Fin n) (b b' : Nat), rank u ≤ r → rank u < b → rank u < b' →
      weightAux G b u = weightAux G b' u := by
  intro r
  induction r with
  | zero =>
      intro u b b' hr hb hb'
      cases b with
      | zero => omega
      | succ b0 =>
          cases b' with
          | zero => omega
          | succ b1 =>
              unfold weightAux
              congr 1
              congr 1
              apply List.map_congr_left
              intro v hv
              exact absurd (hrank u v hv) (by omega)
  | succ r ih =>
      intro u b b' hr hb hb'
      cases b with
      | zero => omega
      | succ b0 =>
          cases b' with
          | zero => omega
          | succ b1 =>
              unfold weightAux
              congr 1
              congr 1
              apply List.map_congr_left
              intro v hv
              have hvr := hrank u v hv
              exact ih v b0 b1 (by omega) (by omega) (by omega)

theorem wt_eq (G : AGraph n m) (rank : Fin n → Nat)
    (hrank : ∀ u, ∀ v ∈ G.succ u, rank v < rank u) (u : Fin n) :
    wt G rank u = 1 + ((G.succ u).map (wt G rank)).sum := by
  show weightAux G (rank u + 1) u = _
  unfold weightAux
  congr 1
  congr 1
  apply List.map_congr_left
  intro v hv
  exact weightAux_stable G rank hrank (rank v) v (rank u) (rank v + 1) le_rfl
    (hrank u v hv) (by omega)

theorem wt_pos (G : AGraph n m) (rank : Fin n → Nat) (u : Fin n) : 1 ≤ wt G rank u :=
  weightAux_pos G _ u

theorem sum_map_filter_le (f : α → Nat) (p : α → Bool) :
    ∀ l : List α, ((l.filter p).map f).sum ≤ (l.map f).sum := by
  intro l
  induction l with
  | nil => exact le_refl 0
  | cons a l ih =>
      rw [List.filter_cons]
      by_cases hp : p a
      · rw [if_pos hp]
        simp only [List.map_cons, List.sum_cons]
        omega
      · rw [if_neg hp]
        simp only [List.map_cons, List.sum_cons]
        omega

theorem sum_map_fst_filter_zip_le (f : α → Nat) (p : α × β → Bool) :
    ∀ (l : List α) (g : List β),
      ((((l.zip g).filter p).map Prod.fst).map f).sum ≤ (l.map f).sum := by
  intro l
  induction l with
  | nil => intro g; simp
  | cons a l ih =>
      intro g
      cases g with
      | nil => simp
      | cons b g2 =>
          rw [List.zip_cons_cons, List.filter_cons]
          by_cases hp : p (a, b)
          · rw [if_pos hp]
            simp only [List.map_cons, List.sum_cons]
            have := ih g2
            omega
          · rw [if_neg hp]
            simp only [List.map_cons, List.sum_cons]
            have := ih g2
            omega

theorem fwMeasure_cons (G : AGraph n m) (rank : Fin n → Nat) (u : Fin n)
    (rest : List (Fin n)) :
    fwMeasure G rank (u :: rest) = wt G rank u + fwMeasure G rank rest := by
  unfold fwMeasure
  rw [List.map_cons, List.sum_cons]

theorem fwMeasure_step (G : AGraph n m) (rank : Fin n → Nat)
    (hrank : ∀ u, ∀ v ∈ G.succ u, rank v < rank u) (u : Fin n)
    (rest : List (Fin n)) (found : Fin m → Option (Fin n)) :
    fwMeasure G rank (rest ++ (processEdges G (G.succ u) found).2) + 1
      ≤ fwMeasure G rank (u :: rest) := by
  rw [fwMeasure_cons]
  unfold fwMeasure
  rw [processEdges_pushes, List.map_append, List.sum_append]
  have h1 := sum_map_filter_le (wt G rank) (fun v => !G.isAccum v) (G.succ u)
  have h2 := wt_eq G rank hrank u
  omega

theorem forwardRun_terminates (G : AGraph n m) (rank : Fin n → Nat)
    (hrank : ∀ u, ∀ v ∈ G.succ u, rank v < rank u) :
    ∀ (fuel : Nat) (q : List (Fin n)) (found : Fin m → Option (Fin n)),
      fwMeasure G rank q ≤ fuel → (forwardRun G fuel q found).isSome := by
  intro fuel
  induction fuel with
  | zero =>
      intro q found h
      cases q with
      | nil => rfl
      | cons u rest =>
          exfalso
          have h1 := wt_pos G rank u
          rw [fwMeasure_cons] at h
          omega
  | succ fuel ih =>
      intro q found h
      cases q with
      | nil => rfl
      | cons u rest =>
          unfold forwardRun
          apply ih
          have := fwMeasure_step G rank hrank u rest found
          omega

theorem bkMeasure_cons (G : AGraph n m) (rank : Fin n → Nat) (u : Fin n) (gin : Tensor)
    (rest : List (Fin n × Tensor)) :
    bkMeasure G rank ((u, gin) :: rest) = wt G rank u + bkMeasure G rank rest := by
  unfold bkMeasure
  rw [List.map_cons, List.map_cons, List.sum_cons]

theorem bkMeasure_append (G : AGraph n m) (rank : Fin n → Nat)
    (q1 q2 : List (Fin n × Tensor)) :
    bkMeasure G rank (q1 ++ q2) = bkMeasure G rank q1 + bkMeasure G rank q2 := by
  unfold bkMeasure
  rw [List.map_append, List.map_append, List.sum_append]

theorem deliver_pushes (G : AGraph n m) :
    ∀ (l : List (Fin n × Tensor)) (st st' : BackState n) (pushes : List (Fin n × Tensor)),
      deliver G l st = .ok (st', pushes) →
      pushes = l.filter (fun p => !G.isAccum p.1) := by
  intro l
  induction l with
  | nil => intro st st' pushes h; cases h; rfl
  | cons p rest ih =>
      obtain ⟨v, g⟩ := p
      intro st st' pushes h
      unfold deliver at h
      cases hacc : G.isAccum v with
      | true =>
          rw [hacc] at h
          simp only [if_true] at h
          rw [List.filter_cons]
          simp only [hacc, Bool.not_true, Bool.false_eq_true, if_false]
          by_cases hseen : v ∈ st.seen
          · rw [if_pos hseen] at h
            cases hgr : st.grads v with
            | none => simp only [hgr] at h; cases h
            | some t =>
                simp only [hgr] at h
                exact ih _ st' pushes h
          · rw [if_neg hseen] at h
            exact ih _ st' pushes h
      | false =>
          rw [hacc] at h
          simp only [Bool.false_eq_true, if_false] at h
          rw [List.filter_cons]
          simp only [hacc, Bool.not_false, if_true]
          cases hd : deliver G rest st with
          | error e => rw [hd] at h; cases h
          | ok r =>
              rw [hd] at h
              cases h
              rw [ih st r.1 r.2 (by rw [hd])]

theorem deliver_no_fuelOut (G : AGraph n m) :
    ∀ (l : List (Fin n × Tensor)) (st : BackState n) (e : RunError),
      deliver G l st = .error e → e = .assertFail := by
  intro l
  induction l with
  | nil => intro st e h; cases h
  | cons p rest ih =>
      obtain ⟨v, g⟩ := p
      intro st e h
      unfold deliver at h
      cases hacc : G.isAccum v with
      | true =>
          rw [hacc] at h
          simp only [if_true] at h
          by_cases hseen : v ∈ st.seen
          · rw [if_pos hseen] at h
            cases hgr : st.grads v with
            | none => simp only [hgr] at h; cases h; rfl
            | some t => simp only [hgr] at h; exact ih _ e h
          · rw [if_neg hseen] at h
            exact ih _ e h
      | false =>
          rw [hacc] at h
          simp only [Bool.false_eq_true, if_false] at h
          cases hd : deliver G rest st with
          | error e2 => rw [hd] at h; cases h; exact ih st e hd
          | ok r => rw [hd] at h; cases h

theorem backRun_terminates (G : AGraph n m) (apply : Fin n → Tensor → List Tensor)
    (rank : Fin n → Nat) (hrank : ∀ u, ∀ v ∈ G.succ u, rank v < rank u) :
    ∀ (fuel : Nat) (q : List (Fin n × Tensor)) (st : BackState n),
      bkMeasure G rank q ≤ fuel → backRun G apply fuel q st ≠ .error .fuelOut := by
  intro fuel
  induction fuel with
  | zero =>
      intro q st h
      cases q with
      | nil => intro hc; cases hc
      | cons p rest =>
          obtain ⟨u, gin⟩ := p
          exfalso
          have h1 := wt_pos G rank u
          rw [bkMeasure_cons] at h
          omega
  | succ fuel ih =>
      intro q st h
      cases q with
      | nil => intro hc; cases hc
      | cons p rest =>
          obtain ⟨u, gin⟩ := p
          unfold backRun
          by_cases hlen : (apply u gin).length = (G.succ u).length
          · rw [if_pos hlen]
            cases hd : deliver G ((G.succ u).zip (apply u gin)) st with
            | error e =>
                have := deliver_no_fuelOut G _ st e hd
                subst this
                intro hc
                cases hc
            | ok r =>
                apply ih
                have hpush := deliver_pushes G _ st r.1 r.2 (by rw [hd])
                rw [bkMeasure_append, hpush]
                have hle : bkMeasure G rank
                    (((G.succ u).zip (apply u gin)).filter (fun p => !G.isAccum p.1))
                    ≤ ((G.succ u).map (wt G rank)).sum := by
                  unfold bkMeasure
                  exact sum_map_fst_filter_zip_le (wt G rank) _ (G.succ u) (apply u gin)
                have h2 := wt_eq G rank hrank u
                rw [bkMeasure_cons] at h
                omega
          · rw [if_neg hlen]
            intro hc
            cases hc

/-- **C9**: both queue-driven walks — the forward edge walk over
`next_edges` in `ExecuteATenOperator` and the gradient-propagation walk in
`ExecuteATenOpBackward` — terminate for every finite acyclic autograd graph
(witnessed by a topological rank), because each iteration pops one node and
pushes only that node's successors whose function is not an AccumulateGrad
node: any fuel at least the path-counting measure of the initial queue
suffices, so the walk never runs out of fuel. -/
theorem walks_terminate {n m : Nat} (G : AGraph n m) (rank : Fin n → Nat)
    (hrank : ∀ u, ∀ v ∈ G.succ u, rank v < rank u) :
    (∀ (fuel : Nat) (q : List (Fin n)) (found : Fin m → Option (Fin n)),
        fwMeasure G rank q ≤ fuel → (forwardRun G fuel q found).isSome) ∧
    (∀ (apply : Fin n → Tensor → List Tensor) (fuel : Nat)
        (q : List (Fin n × Tensor)) (st : BackState n),
        bkMeasure G rank q ≤ fuel → backRun G apply fuel q st ≠ .error .fuelOut) :=
  ⟨forwardRun_terminates G rank hrank,
   fun apply => backRun_terminates G apply rank hrank⟩

/-- Witness for C9 on the two-node fixture tape with its topological rank:
fuel 2 ≥ the measure of either one-element queue, so both walks finish. -/
theorem walks_terminate_witness :
    (forwardRun exGraph 2 [0] (fun _ => (none : Option (Fin 2)))).isSome ∧
    backRun exGraph exApply 2 [((0 : Fin 2), (⟨5, true⟩ : Tensor))]
      ⟨fun _ => none, [], []⟩ ≠ .error .fuelOut :=
  ⟨(walks_terminate exGraph exRank (by decide)).1 2 [0] (fun _ => none) (by decide),
   (walks_terminate exGraph exRank (by decide)).2 exApply 2
     [((0 : Fin 2), (⟨5, true⟩ : Tensor))] ⟨fun _ => none, [], []⟩ (by decide)⟩

end OrtAten
